import Mathlib

/-!
Verification of the target-sftp staged upload engine.

This file contains a shallow embedding of `target_sftp/__init__.py`:
the directory-tree data model (`FolderTree.File` / `FolderTree.Folder`),
the local tree builder (`build_local_tree`), the upload planner
(`prepare_upload_tree`), the artifact cleaner
(`cleanup_previous_artifacts`), the transactional upload engine
(`execute_upload`) and the top-level `upload` flow.  Remote SFTP
operations are modelled as a state machine over an explicit remote
filesystem, with an oracle stream injecting transport failures and a
trace recording every remote request in order.
-/

namespace TargetSftp

/-! ## String and POSIX-path helpers (model of `os.path` on POSIX) -/

/-- `s` ends with `suf` (model of Python `str.endswith`). -/
def sEndsWith (s suf : String) : Bool :=
  suf.data.isSuffixOf s.data

/-- Drop the last `n` characters (model of the Python slice `s[:-n]`). -/
def strDropRight (s : String) (n : Nat) : String :=
  ⟨s.data.take (s.data.length - n)⟩

/-- Drop the first `n` characters (model of the Python slice `s[n:]`). -/
def strDropLeft (s : String) (n : Nat) : String :=
  ⟨s.data.drop n⟩

/-- Model of Python `s.rstrip("/")`. -/
def rstripSlash (s : String) : String :=
  ⟨(s.data.reverse.dropWhile (· = '/')).reverse⟩

/-- Model of POSIX `os.path.join` for two components. -/
def pathJoin (a b : String) : String :=
  if b.data.head? = some '/' then b
  else if a = "" then b
  else if a.data.getLast? = some '/' then a ++ b
  else a ++ "/" ++ b

/-- Model of POSIX `os.path.basename`. -/
def basename (p : String) : String :=
  ⟨(p.data.reverse.takeWhile (· ≠ '/')).reverse⟩

/-- Model of POSIX `os.path.dirname`. -/
def dirname (p : String) : String :=
  let rev := p.data.reverse
  let afterRev := rev.takeWhile (· ≠ '/')
  let headRev := rev.drop afterRev.length
  if headRev.isEmpty then ""
  else if headRev.all (· = '/') then ⟨headRev.reverse⟩
  else ⟨(headRev.dropWhile (· = '/')).reverse⟩

/-- Model of Python `str.split('/')` on a nonempty string: split at
every slash, keeping empty pieces.  The accumulator holds the current
piece reversed. -/
def splitSlashAux : List Char → List Char → List String
  | [], acc => [⟨acc.reverse⟩]
  | c :: rest, acc =>
    if c = '/' then ⟨acc.reverse⟩ :: splitSlashAux rest []
    else splitSlashAux rest (c :: acc)

def splitSlash (s : String) : List String :=
  splitSlashAux s.data []

/-- The path segments the planner walks: Python
`local_folder.path.split('/') if local_folder.path else []`. -/
def relSegs (p : String) : List String :=
  if p = "" then [] else splitSlash p

/-! ## Directory-tree data model (`FolderTree.File` / `FolderTree.Folder`) -/

/-- Model of `FolderTree.File`. -/
structure FileE where
  name : String
  localPath : Option String
  remotePath : Option String
  shouldBeCopied : Bool
  status : String
deriving Repr, DecidableEq

/-- `FolderTree.File.__init__`: fresh file entry. -/
def FileE.init (name localPath : String) : FileE :=
  { name := name, localPath := some localPath, remotePath := none,
    shouldBeCopied := true, status := "pending" }

/-- Model of `FolderTree.Folder` (the parent back-reference is a
non-owning diagnostic field in the source and is not traversed; it is
omitted here). -/
inductive Folder where
  | mk (name : String) (path : String) (nestedFolders : List Folder) (files : List FileE)
deriving Repr

def Folder.name : Folder → String
  | .mk n _ _ _ => n

def Folder.path : Folder → String
  | .mk _ p _ _ => p

def Folder.nestedFolders : Folder → List Folder
  | .mk _ _ fs _ => fs

def Folder.files : Folder → List FileE
  | .mk _ _ _ fs => fs

/-- `Folder.get_nested_folder`: first nested folder with the given name. -/
def Folder.getNestedFolder (f : Folder) (name : String) : Option Folder :=
  f.nestedFolders.find? (fun c => c.name = name)

/-- `Folder.get_file`: first file with the given name. -/
def Folder.getFile (f : Folder) (name : String) : Option FileE :=
  f.files.find? (fun c => c.name = name)

/-! ## `build_local_tree` -/

/-- Update the first folder named `name` in the list (the source finds
the folder by name and mutates it in place). -/
def updateChild (name : String) (g : Folder → Folder) : List Folder → List Folder
  | [] => []
  | c :: rest =>
    if c.name = name then g c :: rest
    else c :: updateChild name g rest

/-- Insert one `os.walk` entry into the tree: descend along `parts`
creating missing folders (with `path = os.path.join(parent.path, part)`),
then append the files of that directory. -/
def insertWalkEntry (dirpath : String) (fnames : List String) : Folder → List String → Folder
  | .mk n p subs files, [] =>
    .mk n p subs (files ++ fnames.map (fun fn => FileE.init fn (pathJoin dirpath fn)))
  | .mk n p subs files, part :: rest =>
    if (Folder.mk n p subs files).getNestedFolder part |>.isSome then
      .mk n p (updateChild part (fun c => insertWalkEntry dirpath fnames c rest) subs) files
    else
      let newChild := Folder.mk part (pathJoin p part) [] []
      .mk n p (subs ++ [insertWalkEntry dirpath fnames newChild rest]) files

/-- Model of `build_local_tree`.  The walk argument is the output of
`os.walk(root_path)`: the visited directory paths with their regular
file names, in walk order (`os.walk` of a nonexistent path yields no
entries and raises nothing). -/
def buildLocalTree (rootPath : String) (walk : List (String × List String)) : Folder :=
  let basePathLength := (rstripSlash rootPath).data.length + 1
  walk.foldl
    (fun acc entry =>
      let relPath := strDropLeft entry.1 basePathLength
      let parts := if relPath = "" then [] else splitSlash relPath
      insertWalkEntry entry.1 entry.2 acc parts)
    (Folder.mk "root" "" [] [])

/-! ## `FolderTree.File.localize` -/

inductive LocalizeErr where
  | alreadySet (name : String) (existing : String)
deriving Repr, DecidableEq

/-- Model of `FolderTree.File.localize`: raises when the remote path is
already assigned, otherwise assigns it (and, when `overwrite` is true,
clears `should_be_copied`). -/
def FileE.localize (f : FileE) (remotePath : String) (overwrite : Bool) : Except LocalizeErr FileE :=
  match f.remotePath with
  | some existing => .error (.alreadySet f.name existing)
  | none =>
    .ok { f with remotePath := some remotePath,
                 shouldBeCopied := if overwrite then false else f.shouldBeCopied }

/-! ## `prepare_upload_tree` -/

/-- `prepare_upload_tree.find_remote_folder`. -/
def findRemoteFolder : Folder → List String → Option Folder
  | f, [] => some f
  | f, part :: rest =>
    match f.getNestedFolder part with
    | none => none
    | some nf => findRemoteFolder nf rest

/-- The per-file step of `prepare_upload_tree.localize_files`: files
whose `remote_path` is already set are left untouched; otherwise the
remote path is assigned and `should_be_copied` is cleared exactly when a
remote counterpart exists and overwrite is off. -/
def localizeFile (remoteFolder : Option Folder) (currentPath : String) (overwrite : Bool)
    (f : FileE) : FileE :=
  match f.remotePath with
  | some _ => f
  | none =>
    let remoteFilePath := pathJoin currentPath f.name
    let existingRemote := remoteFolder.bind (fun rf => rf.getFile f.name)
    match existingRemote with
    | some _ =>
      if overwrite then { f with remotePath := some remoteFilePath }
      else { f with remotePath := some remoteFilePath, shouldBeCopied := false }
    | none => { f with remotePath := some remoteFilePath }

mutual

/-- Model of `prepare_upload_tree.localize_files` (pure rewrite of the
in-place mutation). -/
def localizeFiles (remoteTree : Folder) (overwrite : Bool) : Folder → String → Folder
  | .mk n p subs files, currentPath =>
    let remoteFolder := findRemoteFolder remoteTree (relSegs p)
    .mk n p (localizeFolderList remoteTree overwrite subs currentPath)
      (files.map (localizeFile remoteFolder currentPath overwrite))

def localizeFolderList (remoteTree : Folder) (overwrite : Bool) : List Folder → String → List Folder
  | [], _ => []
  | c :: rest, currentPath =>
    localizeFiles remoteTree overwrite c (pathJoin currentPath c.name)
      :: localizeFolderList remoteTree overwrite rest currentPath

end

/-- Model of `prepare_upload_tree`. -/
def prepareUploadTree (localTree remoteTree : Folder) (rootPath : String)
    (overwrite : Bool) : Folder :=
  localizeFiles remoteTree overwrite localTree (rstripSlash rootPath)

/-! ## Remote session model

The paramiko `SFTPClient` is modelled as a state machine: a remote
filesystem (a list of `(fullPath, isDir)` entries), the session's
working directory, an oracle stream injecting transport failures
(`true` at position `k` makes the `k`-th subsequent remote request fail
with an I/O error), and a trace recording every remote request in order.
-/

/-- Error classes raised by the remote session: `notFound` models
`FileNotFoundError`/`IOError(ENOENT)`, `ioError` every other
`IOError`/`SSHException`. -/
inductive SErr where
  | notFound
  | ioError
deriving Repr, DecidableEq

/-- One remote request, as recorded in the trace. -/
inductive Event where
  | connect
  | listdirAttr (path : String)
  | listdir (path : String)
  | stat (path : String)
  | mkdir (path : String)
  | rmdir (path : String)
  | remove (path : String)
  | rename (src dst : String)
  | chdir (path : Option String)
  | put (src dst : String)
deriving Repr, DecidableEq

structure World where
  fs : List (String × Bool)
  cwd : Option String
  oracle : List Bool
  trace : List Event
deriving Repr

/-- The session monad: a fallible state transformer over `World`
(written in explicit state-passing style; a Python `try`/`except`
boundary shows up as a `match` on the reified outcome). -/
def M (α : Type) : Type := World → Except SErr α × World

def emit (e : Event) (w : World) : World := { w with trace := w.trace ++ [e] }

/-- Pop the next failure-injection decision (empty stream: no failure). -/
def popOracle (w : World) : Bool × World :=
  match w.oracle with
  | [] => (false, w)
  | b :: rest => (b, { w with oracle := rest })

def existsPath (fs : List (String × Bool)) (p : String) : Bool :=
  fs.any (fun e => e.1 = p)

/-- A path that can be listed / changed into: an existing directory
entry, or the filesystem root. -/
def isDirFs (fs : List (String × Bool)) (p : String) : Bool :=
  p = "/" || fs.any (fun e => e = (p, true))

/-- Children of directory `p`: entries whose `dirname` is `p`. -/
def childrenOf (fs : List (String × Bool)) (p : String) : List (String × Bool) :=
  fs.filterMap (fun e => if dirname e.1 = p then some (basename e.1, e.2) else none)

/-- `SFTPClient.stat`. -/
def opStat (p : String) : M Unit := fun w =>
  let w := emit (.stat p) w
  let (f, w) := popOracle w
  if f then (.error .ioError, w)
  else if existsPath w.fs p || isDirFs w.fs p then (.ok (), w)
  else (.error .notFound, w)

/-- `SFTPClient.listdir_attr`: names with a directory flag. -/
def opListdirAttr (p : String) : M (List (String × Bool)) := fun w =>
  let w := emit (.listdirAttr p) w
  let (f, w) := popOracle w
  if f then (.error .ioError, w)
  else if isDirFs w.fs p then (.ok (childrenOf w.fs p), w)
  else (.error .notFound, w)

/-- `SFTPClient.listdir`. -/
def opListdir (p : String) : M (List String) := fun w =>
  let w := emit (.listdir p) w
  let (f, w) := popOracle w
  if f then (.error .ioError, w)
  else if isDirFs w.fs p then (.ok ((childrenOf w.fs p).map (·.1)), w)
  else (.error .notFound, w)

/-- Replace prefix `src` by `dst` in a path that is `src` itself or
lies below it. -/
def renamePath (src dst p : String) : String :=
  if p = src then dst
  else if (src ++ "/").data.isPrefixOf p.data then dst ++ strDropLeft p src.data.length
  else p

/-- `SFTPClient.rename` (SFTP semantics: fails when the target exists). -/
def opRename (src dst : String) : M Unit := fun w =>
  let w := emit (.rename src dst) w
  let (f, w) := popOracle w
  if f then (.error .ioError, w)
  else if ¬ existsPath w.fs src then (.error .notFound, w)
  else if existsPath w.fs dst then (.error .ioError, w)
  else (.ok (), { w with fs := w.fs.map (fun e => (renamePath src dst e.1, e.2)) })

/-- `SFTPClient.remove` (files only). -/
def opRemove (p : String) : M Unit := fun w =>
  let w := emit (.remove p) w
  let (f, w) := popOracle w
  if f then (.error .ioError, w)
  else if w.fs.any (fun e => e = (p, false)) then
    (.ok (), { w with fs := w.fs.filter (fun e => e.1 ≠ p) })
  else if existsPath w.fs p then (.error .ioError, w)
  else (.error .notFound, w)

/-- `SFTPClient.rmdir` (empty directories only). -/
def opRmdir (p : String) : M Unit := fun w =>
  let w := emit (.rmdir p) w
  let (f, w) := popOracle w
  if f then (.error .ioError, w)
  else if w.fs.any (fun e => e = (p, true)) then
    if (childrenOf w.fs p).isEmpty then
      (.ok (), { w with fs := w.fs.filter (fun e => e.1 ≠ p) })
    else (.error .ioError, w)
  else (.error .notFound, w)

/-- `SFTPClient.mkdir`. -/
def opMkdir (p : String) : M Unit := fun w =>
  let w := emit (.mkdir p) w
  let (f, w) := popOracle w
  if f then (.error .ioError, w)
  else if existsPath w.fs p then (.error .ioError, w)
  else (.ok (), { w with fs := w.fs ++ [(p, true)] })

/-- `SFTPClient.put`: whole-file upload (overwrites an existing file). -/
def opPut (src dst : String) : M Unit := fun w =>
  let w := emit (.put src dst) w
  let (f, w) := popOracle w
  if f then (.error .ioError, w)
  else (.ok (), { w with fs := w.fs.filter (fun e => e.1 ≠ dst) ++ [(dst, false)] })

/-- `SFTPClient.chdir`: `chdir(None)` clears the working directory
without a remote round-trip; `chdir(path)` verifies the directory. -/
def opChdir (p : Option String) : M Unit := fun w =>
  let w := emit (.chdir p) w
  match p with
  | none => (.ok (), { w with cwd := none })
  | some q =>
    let (f, w) := popOracle w
    if f then (.error .ioError, w)
    else if isDirFs w.fs q then (.ok (), { w with cwd := some q })
    else (.error .notFound, w)

/-- `SFTPClient.getcwd`: pure read of session state. -/
def opGetcwd : M (Option String) := fun w => (.ok w.cwd, w)

/-! ## `cleanup_previous_artifacts` -/

/-- Step 1 of `cleanup_directory`: restore `*.target_old` files
(each rename is inside its own `try`/`except`, which logs and
continues). -/
def restoreOldLoop : List (String × String) → M Unit
  | [] => fun w => (.ok (), w)
  | (full, name) :: rest => fun w =>
    if sEndsWith name ".target_old" then
      restoreOldLoop rest (opRename full (strDropRight full 11) w).2
    else restoreOldLoop rest w

/-- Step 2 of `cleanup_directory`: remove `*.target_tmp` files
(best-effort). -/
def removeTmpLoop : List (String × String) → M Unit
  | [] => fun w => (.ok (), w)
  | (full, name) :: rest => fun w =>
    if sEndsWith name ".target_tmp" then
      removeTmpLoop rest (opRemove full w).2
    else removeTmpLoop rest w

/-- Step 4 of `cleanup_directory`: remove the directory itself when it
carries the staging marker and is empty (best-effort). -/
def removeMarkerDir (path : String) : M Unit := fun w =>
  match opListdir path w with
  | (.ok l, w₁) => if l.isEmpty then (.ok (), (opRmdir path w₁).2) else (.ok (), w₁)
  | (.error _, w₁) => (.ok (), w₁)

/-- Step 3 of `cleanup_directory`: recurse into subdirectories (the
recursive call is passed in, so the loop is structural). -/
def cleanupDirsLoop (go : String → M Unit) : List (String × String) → M Unit
  | [] => fun w => (.ok (), w)
  | (full, _) :: rest => fun w =>
    cleanupDirsLoop go rest (go full w).2

/-- Model of `cleanup_previous_artifacts.cleanup_directory`.  The whole
body sits inside the source's outer `except IOError` (which logs and
returns), so the function as a whole never raises.  The fuel bounds the
recursion depth (the source relies on the remote tree being finite). -/
def cleanupDirectory : Nat → String → M Unit
  | 0, _ => fun w => (.ok (), w)
  | fuel + 1, path => fun w =>
    match opListdirAttr path w with
    | (.error _, w₁) => (.ok (), w₁)
    | (.ok entries, w₁) =>
      let files := (entries.filter (fun e => !e.2)).map (fun e => (pathJoin path e.1, e.1))
      let dirs := (entries.filter (fun e => e.2)).map (fun e => (pathJoin path e.1, e.1))
      let w₂ := (restoreOldLoop files w₁).2
      let w₃ := (removeTmpLoop files w₂).2
      let w₄ := (cleanupDirsLoop (cleanupDirectory fuel) dirs w₃).2
      if sEndsWith path "_target_tmp" then (.ok (), (removeMarkerDir path w₄).2)
      else (.ok (), w₄)

/-! ## `execute_upload` -/

/-- The engine's transaction-scoped undo log (the three mutable lists of
`execute_upload`). -/
structure Recs where
  tmps : List (String × String × String)
  olds : List (String × String)
  dirs : List String
deriving Repr, DecidableEq

/-- Errors raised by `execute_upload`: raw remote failures, the wrapped
messages of steps 3 and 4, and the final rollback wrapper. -/
inductive UErr where
  | io (e : SErr)
  | renameExistingFailed (path : String)
  | renameTmpFailed (path : String)
  | rolledBack (e : UErr)
deriving Repr, DecidableEq

/-- The root passed to the cleaner by `execute_upload` step 1. -/
def cleanupRootOf (tree : Folder) : String :=
  match tree.files with
  | [] => "/"
  | f :: _ => dirname (f.remotePath.getD "")

/-- The `while current_dir:` walk of `upload_folder` collecting the
missing parent directories (stops at the first existing one; a
non-`FileNotFoundError` from `stat` propagates). -/
def collectDirsToCreate : Nat → String → List String → M (List String)
  | 0, _, acc => fun w => (.ok acc, w)
  | fuel + 1, cur, acc => fun w =>
    if cur = "" then (.ok acc, w)
    else
      match opStat cur w with
      | (.ok _, w₁) => (.ok acc, w₁)
      | (.error .notFound, w₁) => collectDirsToCreate fuel (dirname cur) (acc ++ [cur]) w₁
      | (.error .ioError, w₁) => (.error .ioError, w₁)

/-- `for dir_path in reversed(dirs_to_create): mkdir(dir_path);
created_directories.append(dir_path)` — the partial record survives a
failure. -/
def mkdirLoop : List String → List String → World → List String × Except SErr Unit × World
  | [], dirs, w => (dirs, .ok (), w)
  | d :: rest, dirs, w =>
    match opMkdir d w with
    | (.ok _, w') => mkdirLoop rest (dirs ++ [d]) w'
    | (.error e, w') => (dirs, .error e, w')

/-- The create-parent-directories block of `upload_folder`. -/
def ensureParentDirs (fuel : Nat) (parentDir : String) (dirs : List String) (w : World) :
    List String × Except SErr Unit × World :=
  match opStat parentDir w with
  | (.ok _, w') => (dirs, .ok (), w')
  | (.error .notFound, w') =>
    match collectDirsToCreate fuel parentDir [] w' with
    | (.ok toCreate, w'') => mkdirLoop toCreate.reverse dirs w''
    | (.error e, w'') => (dirs, .error e, w'')
  | (.error .ioError, w') => (dirs, .error .ioError, w')

/-- The per-file loop of `upload_folder` (step 2 of `execute_upload`):
skip files not marked for copying, ensure parent directories, upload to
the `.target_tmp` name, record the staged file. -/
def stageFiles (fuel : Nat) :
    List FileE → List (String × String × String) → List String → World →
    List (String × String × String) × List String × Except SErr Unit × World
  | [], tmps, dirs, w => (tmps, dirs, .ok (), w)
  | f :: rest, tmps, dirs, w =>
    if !f.shouldBeCopied then stageFiles fuel rest tmps dirs w
    else
      let rp := f.remotePath.getD ""
      let tmpPath := rp ++ ".target_tmp"
      let parentDir := dirname rp
      match ensureParentDirs fuel parentDir dirs w with
      | (dirs', .ok _, w') =>
        match opPut (f.localPath.getD "") tmpPath w' with
        | (.ok _, w'') =>
          stageFiles fuel rest (tmps ++ [(dirname rp, basename tmpPath, basename rp)]) dirs' w''
        | (.error e, w'') => (tmps, dirs', .error e, w'')
      | (dirs', .error e, w') => (tmps, dirs', .error e, w')

mutual

/-- `upload_folder`: stage this folder's files, then its subfolders. -/
def stageFolder (fuel : Nat) :
    Folder → List (String × String × String) → List String → World →
    List (String × String × String) × List String × Except SErr Unit × World
  | .mk _ _ subs files, tmps, dirs, w =>
    match stageFiles fuel files tmps dirs w with
    | (tmps', dirs', .ok _, w') => stageFolders fuel subs tmps' dirs' w'
    | res => res

def stageFolders (fuel : Nat) :
    List Folder → List (String × String × String) → List String → World →
    List (String × String × String) × List String × Except SErr Unit × World
  | [], tmps, dirs, w => (tmps, dirs, .ok (), w)
  | c :: rest, tmps, dirs, w =>
    match stageFolder fuel c tmps dirs w with
    | (tmps', dirs', .ok _, w') => stageFolders fuel rest tmps' dirs' w'
    | res => res

end

/-- Step 3 of `execute_upload`: rename existing final files aside to
`.target_old` (a missing file is skipped; any other failure raises the
wrapped rename error). -/
def displaceLoop :
    List (String × String × String) → List (String × String) → World →
    List (String × String) × Except UErr Unit × World
  | [], olds, w => (olds, .ok (), w)
  | (path, _, finalName) :: rest, olds, w =>
    let originalPath := pathJoin path finalName
    let oldPath := originalPath ++ ".target_old"
    match opStat originalPath w with
    | (.ok _, w') =>
      match opRename originalPath oldPath w' with
      | (.ok _, w'') => displaceLoop rest (olds ++ [(path, finalName)]) w''
      | (.error .notFound, w'') => displaceLoop rest olds w''
      | (.error .ioError, w'') => (olds, .error (.renameExistingFailed originalPath), w'')
    | (.error .notFound, w') => displaceLoop rest olds w'
    | (.error .ioError, w') => (olds, .error (.renameExistingFailed originalPath), w')

/-- Step 4 of `execute_upload`: rename each staged `.target_tmp` file to
its final name. -/
def publishLoop : List (String × String × String) → World → Except UErr Unit × World
  | [], w => (.ok (), w)
  | (path, tmpName, finalName) :: rest, w =>
    match opRename (pathJoin path tmpName) (pathJoin path finalName) w with
    | (.ok _, w') => publishLoop rest w'
    | (.error _, w') => (.error (.renameTmpFailed (pathJoin path tmpName)), w')

/-- Step 5 of `execute_upload`: delete the `.target_old` backups
(best-effort). -/
def finalizeLoop : List (String × String) → World → World
  | [], w => w
  | (path, name) :: rest, w =>
    let (_, w') := opRemove (pathJoin path (name ++ ".target_old")) w
    finalizeLoop rest w'

/-- Rollback: remove every recorded temp file (best-effort). -/
def rollbackTmps : List (String × String × String) → World → World
  | [], w => w
  | (path, tmpName, _) :: rest, w =>
    let (_, w') := opRemove (pathJoin path tmpName) w
    rollbackTmps rest w'

/-- Rollback: rename every recorded backup to its original name
(best-effort). -/
def rollbackOlds : List (String × String) → World → World
  | [], w => w
  | (path, name) :: rest, w =>
    let (_, w') := opRename (pathJoin path (name ++ ".target_old")) (pathJoin path name) w
    rollbackOlds rest w'

/-- Rollback, one created directory: remove it only if listing shows it
empty; every failure is swallowed. -/
def rollbackDirStep (d : String) (w : World) : World :=
  match opListdir d w with
  | (.ok l, w') => if l.isEmpty then (opRmdir d w').2 else w'
  | (.error _, w') => w'

/-- Rollback: remove the recorded directories (callers pass the list
already reversed, leaf to root). -/
def rollbackDirs : List String → World → World
  | [], w => w
  | d :: rest, w => rollbackDirs rest (rollbackDirStep d w)

/-- The `try` body of `execute_upload` (steps 1–5), returning the undo
log accumulated so far together with the outcome. -/
def executeUploadBody (fuel : Nat) (tree : Folder) (overwrite : Bool) (w : World) :
    Recs × Except UErr Unit × World :=
  match cleanupDirectory fuel (cleanupRootOf tree) w with
  | (.error e, w₁) => (⟨[], [], []⟩, .error (.io e), w₁)
  | (.ok _, w₁) =>
    match stageFolder fuel tree [] [] w₁ with
    | (tmps, dirs, .error e, w₂) => (⟨tmps, [], dirs⟩, .error (.io e), w₂)
    | (tmps, dirs, .ok _, w₂) =>
      match (if overwrite then displaceLoop tmps [] w₂ else ([], .ok (), w₂)) with
      | (olds, .error e, w₃) => (⟨tmps, olds, dirs⟩, .error e, w₃)
      | (olds, .ok _, w₃) =>
        match publishLoop tmps w₃ with
        | (.error e, w₄) => (⟨tmps, olds, dirs⟩, .error e, w₄)
        | (.ok _, w₄) => (⟨tmps, olds, dirs⟩, .ok (), finalizeLoop olds w₄)

/-- Model of `execute_upload`: run the body; on any failure perform the
best-effort rollback and re-raise the original failure wrapped as
"upload failed and was rolled back". -/
def executeUpload (fuel : Nat) (tree : Folder) (overwrite : Bool) (w : World) :
    Except UErr Unit × World :=
  match executeUploadBody fuel tree overwrite w with
  | (_, .ok _, w') => (.ok (), w')
  | (recs, .error e, w') =>
    let w₁ := rollbackTmps recs.tmps w'
    let w₂ := rollbackOlds recs.olds w₁
    let w₃ := rollbackDirs recs.dirs.reverse w₂
    (.error (.rolledBack e), w₃)

/-! ## `build_remote_tree` -/

/-- Model of POSIX `os.path.relpath` for already-relative inputs. -/
def relpathModel (p start : String) : String :=
  let ps := (p.splitOn "/").filter (fun s => s ≠ "" ∧ s ≠ ".")
  let ss := (start.splitOn "/").filter (fun s => s ≠ "" ∧ s ≠ ".")
  let common := (List.zip ss ps).takeWhile (fun e => e.1 = e.2) |>.length
  let parts := List.replicate (ss.length - common) ".." ++ ps.drop common
  if parts = [] then "." else "/".intercalate parts

/-- The entry loop of `scan_directory`: skip hidden names, recurse into
directories (through the passed-in recursive call), turn the rest into
remote-only file entries. -/
def scanEntries (go : String → M (List Folder × List FileE)) (rootPath current : String) :
    List (String × Bool) → M (List Folder × List FileE)
  | [] => fun w => (.ok ([], []), w)
  | (name, isDir) :: rest => fun w =>
    if name.data.head? = some '.' then scanEntries go rootPath current rest w
    else if isDir then
      match go (pathJoin current name) w with
      | (.ok sub, w₁) =>
        match scanEntries go rootPath current rest w₁ with
        | (.ok restRes, w₂) =>
          (.ok (Folder.mk name
              (if rootPath = "/" then pathJoin current name
               else relpathModel (pathJoin current name) rootPath)
              sub.1 sub.2 :: restRes.1, restRes.2), w₂)
        | (.error e, w₂) => (.error e, w₂)
      | (.error e, w₁) => (.error e, w₁)
    else
      match scanEntries go rootPath current rest w with
      | (.ok restRes, w₁) =>
        (.ok (restRes.1,
          { name := name, localPath := none, remotePath := some (pathJoin current name),
            shouldBeCopied := false, status := "pending" } :: restRes.2), w₁)
      | (.error e, w₁) => (.error e, w₁)

/-- `build_remote_tree.scan_directory`, one directory: list it and
process the entries (a listing failure is logged and re-raised). -/
def scanDir : Nat → String → String → M (List Folder × List FileE)
  | 0, _, _ => fun w => (.ok ([], []), w)
  | fuel + 1, rootPath, current => fun w =>
    match opListdirAttr current w with
    | (.ok entries, w₁) => scanEntries (scanDir fuel rootPath) rootPath current entries w₁
    | (.error e, w₁) => (.error e, w₁)

/-- The `try` block of `build_remote_tree`: change into the root (when
it is neither empty nor `/`) and scan from there. -/
def buildRemoteBody (fuel : Nat) (rootPath : String) : M (List Folder × List FileE) := fun w =>
  match (if rootPath ≠ "" ∧ rootPath ≠ "/" then opChdir (some rootPath) w
         else (.ok (), w)) with
  | (.ok _, w₁) => scanDir fuel rootPath (if rootPath = "/" then "." else rootPath) w₁
  | (.error e, w₁) => (.error e, w₁)

/-- Model of `build_remote_tree`: remember the working directory
(`getcwd`, a pure session read), scan inside a `try`, restore the
working directory in the `finally`, then return the tree or re-raise;
an exception from the restoring `chdir` itself propagates, as it does
from a Python `finally`. -/
def buildRemoteTree (fuel : Nat) (rootPath : String) : M Folder := fun w =>
  match buildRemoteBody fuel rootPath w with
  | (r, w₁) =>
    match opChdir w.cwd w₁ with
    | (.ok _, w₂) =>
      match r with
      | .ok res => (.ok (Folder.mk "root" "" res.1 res.2), w₂)
      | .error e => (.error e, w₂)
    | (.error e, w₂) => (.error e, w₂)

/-! ## `upload` and `has_minimum_amount_of_files` -/

inductive TopErr where
  | inputMissing (path : String)
  | remote (e : SErr)
  | engine (e : UErr)
deriving Repr, DecidableEq

/-- Model of `has_minimum_amount_of_files`: raise when the input path
does not exist, otherwise report whether some walked directory holds at
least one file.  `inputExists` and `walk` model `os.path.exists` and
`os.walk` on the local filesystem. -/
def hasMinimumAmountOfFiles (inputExists : Bool) (inputPath : String)
    (walk : List (String × List String)) : Except TopErr Bool :=
  if !inputExists then .error (.inputMissing inputPath)
  else .ok (walk.any (fun e => e.2.length > 0))

/-- Model of `upload`: the pre-flight local check runs before the SFTP
connection is created; the `connect` event marks `client.connection`
(closing the connection in the source's `finally` has no further effect
on the remote state modelled here). -/
def upload (fuel : Nat) (inputExists : Bool) (inputPath : String)
    (walk : List (String × List String)) (pathPrefix : String) (overwrite : Bool)
    (w : World) : Except TopErr Unit × World :=
  match hasMinimumAmountOfFiles inputExists inputPath walk with
  | .error e => (.error e, w)
  | .ok false => (.ok (), w)
  | .ok true =>
    let w := emit .connect w
    let exportPath := if rstripSlash pathPrefix = "" then "/" else rstripSlash pathPrefix
    let localTree := buildLocalTree inputPath walk
    match buildRemoteTree fuel exportPath w with
    | (.error e, w') => (.error (.remote e), w')
    | (.ok remoteTree, w') =>
      let prepared := prepareUploadTree localTree remoteTree exportPath overwrite
      match executeUpload fuel prepared overwrite w' with
      | (.ok _, w'') => (.ok (), w'')
      | (.error e, w'') => (.error (.engine e), w'')

/-! ## Chunked transfer ranges -/

/-- Modelled from the spec: the repository's chunked-transfer module is
not among the provided sources; per §4.5 a file of size `S` is divided
among `N` workers into contiguous byte ranges of `S / N` bytes each,
the last range absorbing the remainder so the ranges exactly cover the
file. -/
def chunkStart (S N i : Nat) : Nat := i * (S / N)

/-- Modelled from the spec: end (exclusive) of worker `i`'s byte range. -/
def chunkEnd (S N i : Nat) : Nat := if i = N - 1 then S else (i + 1) * (S / N)

/-- Modelled from the spec: the `N` byte ranges `[start, end)` assigned
to the workers. -/
def chunkRanges (S N : Nat) : List (Nat × Nat) :=
  (List.range N).map (fun i => (chunkStart S N i, chunkEnd S N i))

/-! ## Specification-side notions -/

/-- The folder reached from `(f, p)` by following nested folders, with
the accumulated remote path the planner carries (`current_path`). -/
inductive Reaches : Folder → String → Folder → String → Prop where
  | refl (f : Folder) (p : String) : Reaches f p f p
  | step {f : Folder} {p : String} {c : Folder} {sub : Folder} {q : String} :
      c ∈ f.nestedFolders → Reaches c (pathJoin p c.name) sub q → Reaches f p sub q

/-- A filename as produced by a directory walk: nonempty, no slash. -/
def goodName (n : String) : Prop := n ≠ "" ∧ ∀ c ∈ n.data, c ≠ '/'

/-- A root-relative path: empty, or with no leading/trailing slash. -/
def goodRel (p : String) : Prop :=
  p = "" ∨ (p ≠ "" ∧ p.data.head? ≠ some '/' ∧ p.data.getLast? ≠ some '/')

mutual

/-- The invariant `build_local_tree` maintains: every child's `path` is
`os.path.join(parent.path, child.name)` and names are walk names. -/
def wfFolder : Folder → Prop
  | .mk _ p subs _ => wfChildren p subs

def wfChildren : String → List Folder → Prop
  | _, [] => True
  | par, c :: rest =>
    (c.path = pathJoin par c.name ∧ goodName c.name ∧ wfFolder c) ∧ wfChildren par rest

end

mutual

/-- The files `upload_folder` transfers, in engine traversal order
(this folder's files marked for copying, then the subfolders'). -/
def collectCopied : Folder → List FileE
  | .mk _ _ subs files => files.filter (fun f => f.shouldBeCopied) ++ collectCopiedList subs

def collectCopiedList : List Folder → List FileE
  | [] => []
  | c :: rest => collectCopied c ++ collectCopiedList rest

end

/-- The staging event for a planned file. -/
def putEv (f : FileE) : Event :=
  .put (f.localPath.getD "") ((f.remotePath.getD "") ++ ".target_tmp")

def Event.isPut : Event → Bool
  | .put _ _ => true
  | _ => false

def Event.isRemove : Event → Bool
  | .remove _ => true
  | _ => false

/-- Events the artifact cleaner may issue. -/
def cleanupEv : Event → Bool
  | .listdirAttr _ | .listdir _ | .rename _ _ | .remove _ | .rmdir _ => true
  | _ => false

/-- Events the staging phase may issue. -/
def stageEv : Event → Bool
  | .stat _ | .mkdir _ | .put _ _ => true
  | _ => false

/-- Events of the parent-directory-creation block. -/
def statMkdirEv : Event → Bool
  | .stat _ | .mkdir _ => true
  | _ => false

/-- Events the displace phase may issue: existence checks and
renames-aside to the backup name. -/
def displaceEv : Event → Bool
  | .stat _ => true
  | .rename s d => d == s ++ ".target_old"
  | _ => false

/-- Events the publish phase may issue: renames whose source carries the
temp suffix. -/
def publishEv : Event → Bool
  | .rename s _ => sEndsWith s ".target_tmp"
  | _ => false

/-- A staged-file record names a `.target_tmp` temp file. -/
def recTmpOk (r : String × String × String) : Bool :=
  sEndsWith r.2.1 ".target_tmp"

/-- The trace segment `w → w'` only appends events satisfying `P`. -/
def OnlyEmits (w w' : World) (P : Event → Bool) : Prop :=
  ∃ t, w'.trace = w.trace ++ t ∧ ∀ e ∈ t, P e = true

/-- Rollback of the created directories, as a step relation: directories
are processed in the given (reverse-creation) order; each is listed, and
`rmdir` is issued only when the listing succeeded and showed the
directory empty; every failure is swallowed. -/
inductive RollbackDirsRel : List String → World → World → Prop where
  | nil (w : World) : RollbackDirsRel [] w w
  | skipFail {d : String} {ds : List String} {w w₁ w₂ : World} {e : SErr} :
      opListdir d w = (.error e, w₁) → RollbackDirsRel ds w₁ w₂ →
      RollbackDirsRel (d :: ds) w w₂
  | skipNonempty {d : String} {ds : List String} {w w₁ w₂ : World} {l : List String} :
      opListdir d w = (.ok l, w₁) → l ≠ [] → RollbackDirsRel ds w₁ w₂ →
      RollbackDirsRel (d :: ds) w w₂
  | removeEmpty {d : String} {ds : List String} {w w₁ w₂ : World} :
      opListdir d w = (.ok [], w₁) → RollbackDirsRel ds (opRmdir d w₁).2 w₂ →
      RollbackDirsRel (d :: ds) w w₂

/-- Shape of the cleaner's step-4 trace for one directory. -/
def MarkerShape (path : String) (t : List Event) : Prop :=
  (sEndsWith path "_target_tmp" = false ∧ t = []) ∨
  (sEndsWith path "_target_tmp" = true ∧
    (t = [Event.listdir path] ∨ t = [Event.listdir path, Event.rmdir path]))

/-! ## String and path lemmas -/

theorem str_ne_empty_iff (s : String) : s ≠ "" ↔ s.data ≠ [] := by
  constructor
  · intro h hc
    exact h (String.ext (by simpa using hc))
  · intro h hc
    rw [hc] at h
    exact h rfl

theorem strMk_data (s : String) : String.mk s.data = s := by
  cases s
  rfl

theorem strAppend_assoc (s t u : String) : s ++ t ++ u = s ++ (t ++ u) := by
  apply String.ext
  simp [String.data_append, List.append_assoc]

theorem strAppend_empty (s : String) : s ++ "" = s := by
  apply String.ext
  simp [String.data_append]

theorem append_ne_empty_left (a b : String) (h : a ≠ "") : a ++ b ≠ "" := by
  rw [str_ne_empty_iff] at h ⊢
  rw [String.data_append]
  simp [h]

theorem data_head_append_of_ne (a b : String) (h : a ≠ "") :
    (a ++ b).data.head? = a.data.head? := by
  rw [str_ne_empty_iff] at h
  rw [String.data_append, List.head?_append]
  cases hd : a.data with
  | nil => exact absurd hd h
  | cons c t => simp

theorem data_last_append_of_ne (a b : String) (h : b ≠ "") :
    (a ++ b).data.getLast? = b.data.getLast? := by
  rw [str_ne_empty_iff] at h
  rw [String.data_append, List.getLast?_append]
  rcases List.getLast?_isSome.mpr h |> Option.isSome_iff_exists.mp with ⟨c, hc⟩
  simp [hc]

theorem goodName_head {n : String} (h : goodName n) : n.data.head? ≠ some '/' := by
  intro hc
  cases hd : n.data with
  | nil => rw [hd] at hc; simp at hc
  | cons c t =>
    rw [hd] at hc
    simp at hc
    exact h.2 c (by rw [hd]; exact List.mem_cons_self c t) hc

theorem goodName_last {n : String} (h : goodName n) : n.data.getLast? ≠ some '/' := by
  intro hc
  exact h.2 '/' (List.mem_of_mem_getLast? hc) rfl

theorem goodName_ne {n : String} (h : goodName n) : n ≠ "" := h.1

theorem pathJoin_empty_left (b : String) : pathJoin "" b = b := by
  unfold pathJoin
  split
  · rfl
  · simp

theorem pathJoin_of_ends_slash (a b : String) (ha : a ≠ "")
    (hsl : a.data.getLast? = some '/') (hb : b.data.head? ≠ some '/') :
    pathJoin a b = a ++ b := by
  unfold pathJoin
  simp [hb, ha, hsl]

theorem pathJoin_plain (a b : String) (ha : a ≠ "")
    (hsl : a.data.getLast? ≠ some '/') (hb : b.data.head? ≠ some '/') :
    pathJoin a b = a ++ "/" ++ b := by
  unfold pathJoin
  simp [hb, ha, hsl]

theorem slash_data : ("/" : String).data = ['/'] := rfl

theorem data_last_append_slash (a : String) : (a ++ "/").data.getLast? = some '/' := by
  rw [String.data_append, slash_data]
  exact List.getLast?_concat _

theorem pathJoin_empty_collapse (a m : String) (hm : m.data.head? ≠ some '/') :
    pathJoin (pathJoin a "") m = pathJoin a m := by
  by_cases ha : a = ""
  · subst ha
    rw [pathJoin_empty_left]
  · by_cases hsl : a.data.getLast? = some '/'
    · have h1 : pathJoin a "" = a := by
        rw [pathJoin_of_ends_slash a "" ha hsl (by simp), strAppend_empty]
      rw [h1]
    · have h1 : pathJoin a "" = a ++ "/" := by
        unfold pathJoin
        simp [ha, hsl]
      rw [h1]
      rw [pathJoin_of_ends_slash (a ++ "/") m (append_ne_empty_left a "/" ha)
            (data_last_append_slash a) hm]
      rw [pathJoin_plain a m ha hsl hm]

theorem goodRel_pathJoin {x n : String} (hx : goodRel x) (hn : goodName n) :
    goodRel (pathJoin x n) := by
  rcases hx with hx | ⟨hne, hh, hl⟩
  · subst hx
    rw [pathJoin_empty_left]
    exact .inr ⟨hn.1, goodName_head hn, goodName_last hn⟩
  · rw [pathJoin_plain x n hne hl (goodName_head hn)]
    refine .inr ⟨append_ne_empty_left _ _ (append_ne_empty_left _ _ hne), ?_, ?_⟩
    · rw [data_head_append_of_ne _ _ (append_ne_empty_left _ _ hne),
        data_head_append_of_ne _ _ hne]
      exact hh
    · rw [data_last_append_of_ne _ _ hn.1]
      exact goodName_last hn

theorem pathJoin_assoc_chain (a x c m : String) (hx : goodRel x) (hc : goodName c)
    (hm : m.data.head? ≠ some '/') :
    pathJoin (pathJoin (pathJoin a x) c) m = pathJoin (pathJoin a (pathJoin x c)) m := by
  rcases hx with hx | ⟨hne, hh, hl⟩
  · subst hx
    rw [pathJoin_empty_left, pathJoin_empty_collapse a c (goodName_head hc)]
  · have hD : pathJoin x c = x ++ "/" ++ c := pathJoin_plain x c hne hl (goodName_head hc)
    have hDne : x ++ "/" ++ c ≠ "" := append_ne_empty_left _ _ (append_ne_empty_left _ _ hne)
    have hDhead : (x ++ "/" ++ c).data.head? = x.data.head? := by
      rw [data_head_append_of_ne _ _ (append_ne_empty_left _ _ hne),
        data_head_append_of_ne _ _ hne]
    have hDlast : (x ++ "/" ++ c).data.getLast? = c.data.getLast? :=
      data_last_append_of_ne _ _ hc.1
    by_cases ha : a = ""
    · subst ha
      rw [pathJoin_empty_left, pathJoin_empty_left]
    · by_cases hsl : a.data.getLast? = some '/'
      · have h1 : pathJoin a x = a ++ x := pathJoin_of_ends_slash a x ha hsl hh
        have h2 : pathJoin (a ++ x) c = a ++ x ++ "/" ++ c := by
          refine pathJoin_plain _ c (append_ne_empty_left a x ha) ?_ (goodName_head hc)
          rw [data_last_append_of_ne a x hne]
          exact hl
        have h3 : pathJoin a (x ++ "/" ++ c) = a ++ (x ++ "/" ++ c) := by
          refine pathJoin_of_ends_slash a _ ha hsl ?_
          rw [hDhead]
          exact hh
        rw [h1, h2, hD, h3]
        have : a ++ x ++ "/" ++ c = a ++ (x ++ "/" ++ c) := by
          apply String.ext
          simp [String.data_append]
        rw [this]
      · have h1 : pathJoin a x = a ++ "/" ++ x := pathJoin_plain a x ha hsl hh
        have h2 : pathJoin (a ++ "/" ++ x) c = a ++ "/" ++ x ++ "/" ++ c := by
          refine pathJoin_plain _ c (append_ne_empty_left _ x (append_ne_empty_left a "/" ha))
            ?_ (goodName_head hc)
          rw [data_last_append_of_ne _ x hne]
          exact hl
        have h3 : pathJoin a (x ++ "/" ++ c) = a ++ "/" ++ (x ++ "/" ++ c) := by
          refine pathJoin_plain a _ ha hsl ?_
          rw [hDhead]
          exact hh
        rw [h1, h2, hD, h3]
        have : a ++ "/" ++ x ++ "/" ++ c = a ++ "/" ++ (x ++ "/" ++ c) := by
          apply String.ext
          simp [String.data_append]
        rw [this]

theorem takeWhile_nonslash {n : String} (hn : ∀ c ∈ n.data, c ≠ '/') (rest : List Char) :
    (n.data.reverse ++ '/' :: rest).takeWhile (· ≠ '/') = n.data.reverse := by
  rw [List.takeWhile_append_of_pos
      (by intro x hx; simpa using hn x (List.mem_reverse.mp hx))]
  simp [List.takeWhile_cons]

theorem dirname_eq (p : String) :
    dirname p =
      if (p.data.reverse.drop ((p.data.reverse.takeWhile (· ≠ '/')).length)).isEmpty then ""
      else if (p.data.reverse.drop ((p.data.reverse.takeWhile (· ≠ '/')).length)).all (· = '/') then
        ⟨(p.data.reverse.drop ((p.data.reverse.takeWhile (· ≠ '/')).length)).reverse⟩
      else
        ⟨((p.data.reverse.drop ((p.data.reverse.takeWhile (· ≠ '/')).length)).dropWhile (· = '/')).reverse⟩ :=
  rfl

theorem dirname_pathJoin (p n : String) (hn : goodName n)
    (hp : p = "/" ∨ p.data.getLast? ≠ some '/') : dirname (pathJoin p n) = p := by
  have hnAll : ∀ c ∈ n.data, c ≠ '/' := hn.2
  rcases hp with hp | hp
  · subst hp
    rw [pathJoin_of_ends_slash "/" n (by simp) (by rw [slash_data]; rfl) (goodName_head hn)]
    have hdata : (("/" : String) ++ n).data = '/' :: n.data := by
      rw [String.data_append, slash_data]
      rfl
    simp only [dirname, hdata]
    have hrev : ('/' :: n.data).reverse = n.data.reverse ++ '/' :: [] := by simp
    rw [hrev, takeWhile_nonslash hnAll]
    rw [List.drop_left]
    simp
  · by_cases hpe : p = ""
    · subst hpe
      rw [pathJoin_empty_left]
      simp only [dirname]
      rw [List.takeWhile_eq_self_iff.mpr
          (by intro x hx; simpa using hnAll x (List.mem_reverse.mp hx))]
      rw [List.drop_length]
      simp
    · rw [pathJoin_plain p n hpe hp (goodName_head hn)]
      rw [dirname_eq]
      have hdata : (p ++ "/" ++ n).data = (p.data ++ ['/']) ++ n.data := by
        rw [String.data_append, String.data_append, slash_data]
      rw [hdata]
      have hrev : ((p.data ++ ['/']) ++ n.data).reverse = n.data.reverse ++ '/' :: p.data.reverse := by
        simp
      rw [hrev, takeWhile_nonslash hnAll]
      rw [List.drop_left]
      obtain ⟨c, hc⟩ : ∃ c, p.data.getLast? = some c := by
        have : p.data ≠ [] := (str_ne_empty_iff p).mp hpe
        exact Option.isSome_iff_exists.mp (List.getLast?_isSome.mpr this)
      have hcne : c ≠ '/' := by
        intro h
        rw [h] at hc
        exact hp hc
      have hcmem : c ∈ p.data.reverse := by
        rw [List.mem_reverse]
        exact List.mem_of_mem_getLast? hc
      have hallFalse : ¬ ((('/' :: p.data.reverse).all (· = '/')) = true) := by
        rw [List.all_eq_true]
        intro h
        have := h c (List.mem_cons_of_mem _ hcmem)
        simp at this
        exact hcne this
      simp only [List.isEmpty_cons, Bool.false_eq_true, if_false, hallFalse, if_neg hallFalse]
      have hdw : ('/' :: p.data.reverse).dropWhile (· = '/') = p.data.reverse.dropWhile (· = '/') := by
        simp [List.dropWhile_cons]
      rw [hdw]
      cases hrev2 : p.data.reverse with
      | nil =>
        have : p.data = [] := by simpa using congrArg List.reverse hrev2
        exact absurd this ((str_ne_empty_iff p).mp hpe)
      | cons d t =>
        have hd : d = c := by
          have h1 : p.data.reverse.head? = some c := by
            rw [List.head?_reverse]
            exact hc
          rw [hrev2] at h1
          simpa using h1
        have : (d :: t).dropWhile (· = '/') = d :: t := by
          simp [List.dropWhile_cons, hd, hcne]
        rw [this, ← hrev2]
        simp [strMk_data]

theorem wfChildren_mem_aux {par : String} {subs : List Folder} {c : Folder}
    (hw : wfChildren par subs) (hmem : c ∈ subs) :
    c.path = pathJoin par c.name ∧ goodName c.name ∧ wfFolder c := by
  induction subs with
  | nil => cases hmem
  | cons d rest ih =>
    rw [wfChildren] at hw
    rcases List.mem_cons.mp hmem with h | h
    · subst h
      exact hw.1
    · exact ih hw.2 h

theorem wfChildren_mem {f : Folder} {c : Folder} (hwf : wfFolder f)
    (hmem : c ∈ f.nestedFolders) :
    c.path = pathJoin f.path c.name ∧ goodName c.name ∧ wfFolder c := by
  cases f with
  | mk n p subs files =>
    rw [wfFolder] at hwf
    exact wfChildren_mem_aux hwf hmem

/-- Key invariant of the planner's recursion: under the tree invariant,
joining a walk name to the accumulated path agrees with joining it to
`remoteRootPrefix + relativePath`. -/
theorem reaches_inv {lf : Folder} {q : String} {sub : Folder} {p : String} (P : String)
    (hr : Reaches lf q sub p) (hwf : wfFolder lf) (hgr : goodRel lf.path)
    (hq : ∀ m, goodName m → pathJoin q m = pathJoin (pathJoin P lf.path) m) :
    goodRel sub.path ∧
      ∀ m, goodName m → pathJoin p m = pathJoin (pathJoin P sub.path) m := by
  induction hr with
  | refl f p => exact ⟨hgr, hq⟩
  | @step f p c sub q hmem _ ih =>
    obtain ⟨hpath, hname, hwfc⟩ := wfChildren_mem hwf hmem
    refine ih hwfc ?_ ?_
    · rw [hpath]
      exact goodRel_pathJoin hgr hname
    · intro m hm
      rw [hq c.name hname, hpath]
      exact pathJoin_assoc_chain P f.path c.name m hgr hname (goodName_head hm)

end TargetSftp

namespace TargetSftp

theorem sEndsWith_append_self (a b : String) : sEndsWith (a ++ b) b = true := by
  unfold sEndsWith
  rw [String.data_append]
  exact List.isSuffixOf_iff_suffix.mpr (List.suffix_append _ _)

theorem sEndsWith_pathJoin (p b s : String) (h : sEndsWith b s = true) :
    sEndsWith (pathJoin p b) s = true := by
  unfold sEndsWith at h ⊢
  rw [List.isSuffixOf_iff_suffix] at h ⊢
  unfold pathJoin
  split
  · exact h
  · split
    · exact h
    · split
      · rw [String.data_append]
        exact h.trans (List.suffix_append _ _)
      · rw [String.data_append]
        exact h.trans (List.suffix_append _ _)

theorem basename_append_endsWith (a suf : String) (hsuf : ∀ c ∈ suf.data, c ≠ '/') :
    sEndsWith (basename (a ++ suf)) suf = true := by
  unfold basename sEndsWith
  rw [String.data_append]
  rw [List.reverse_append]
  rw [List.takeWhile_append_of_pos
      (by intro x hx; simpa using hsuf x (List.mem_reverse.mp hx))]
  rw [List.reverse_append, List.reverse_reverse]
  exact List.isSuffixOf_iff_suffix.mpr (List.suffix_append _ _)

theorem recTmpOk_basename (rp : String) :
    recTmpOk (dirname rp, basename (rp ++ ".target_tmp"), basename rp) = true := by
  unfold recTmpOk
  exact basename_append_endsWith rp ".target_tmp" (by decide)

/-! ## Planner equations and reachability -/

theorem localizeFiles_mk (rt : Folder) (ow : Bool) (n p : String)
    (subs : List Folder) (files : List FileE) (cur : String) :
    localizeFiles rt ow (.mk n p subs files) cur =
      .mk n p (localizeFolderList rt ow subs cur)
        (files.map (localizeFile (findRemoteFolder rt (relSegs p)) cur ow)) := by
  rw [localizeFiles]

theorem localizeFolderList_nil (rt : Folder) (ow : Bool) (cur : String) :
    localizeFolderList rt ow [] cur = [] := by
  rw [localizeFolderList]

theorem localizeFolderList_cons (rt : Folder) (ow : Bool) (c : Folder)
    (rest : List Folder) (cur : String) :
    localizeFolderList rt ow (c :: rest) cur =
      localizeFiles rt ow c (pathJoin cur c.name) :: localizeFolderList rt ow rest cur := by
  rw [localizeFolderList]

theorem localizeFiles_name (rt : Folder) (ow : Bool) (f : Folder) (cur : String) :
    (localizeFiles rt ow f cur).name = f.name := by
  cases f
  rw [localizeFiles_mk]
  rfl

theorem localizeFiles_files (rt : Folder) (ow : Bool) (f : Folder) (cur : String) :
    (localizeFiles rt ow f cur).files =
      f.files.map (localizeFile (findRemoteFolder rt (relSegs f.path)) cur ow) := by
  cases f
  rw [localizeFiles_mk]
  rfl

theorem mem_localizeFolderList {c : Folder} {subs : List Folder} (h : c ∈ subs)
    (rt : Folder) (ow : Bool) (cur : String) :
    localizeFiles rt ow c (pathJoin cur c.name) ∈ localizeFolderList rt ow subs cur := by
  induction subs with
  | nil => cases h
  | cons d rest ih =>
    rw [localizeFolderList_cons]
    rcases List.mem_cons.mp h with h | h
    · subst h
      exact List.mem_cons_self _ _
    · exact List.mem_cons_of_mem _ (ih h)

theorem mapReaches {lf : Folder} {p₀ : String} {sub : Folder} {p : String}
    (h : Reaches lf p₀ sub p) (rt : Folder) (ow : Bool) :
    Reaches (localizeFiles rt ow lf p₀) p₀ (localizeFiles rt ow sub p) p := by
  induction h with
  | refl f q => exact .refl _ _
  | @step f q c sub' q' hmem hr ih =>
    refine Reaches.step (c := localizeFiles rt ow c (pathJoin q c.name)) ?_ ?_
    · cases f with
      | mk n p subs files =>
        rw [localizeFiles_mk]
        exact mem_localizeFolderList hmem rt ow q
    · rw [localizeFiles_name]
      exact ih

/-! ## Collector lemmas -/

theorem collectCopied_mk (n p : String) (subs : List Folder) (files : List FileE) :
    collectCopied (.mk n p subs files) =
      files.filter (fun f => f.shouldBeCopied) ++ collectCopiedList subs := by
  rw [collectCopied]

theorem collectCopiedList_cons (c : Folder) (rest : List Folder) :
    collectCopiedList (c :: rest) = collectCopied c ++ collectCopiedList rest := by
  rw [collectCopiedList]

mutual

theorem collectCopied_sound (t : Folder) (g : FileE) (h : g ∈ collectCopied t) :
    g.shouldBeCopied = true := by
  cases t with
  | mk n p subs files =>
    rw [collectCopied_mk] at h
    rcases List.mem_append.mp h with h | h
    · exact (List.mem_filter.mp h).2
    · exact collectCopiedList_sound subs g h

theorem collectCopiedList_sound (subs : List Folder) (g : FileE)
    (h : g ∈ collectCopiedList subs) : g.shouldBeCopied = true := by
  cases subs with
  | nil => rw [collectCopiedList] at h; cases h
  | cons c rest =>
    rw [collectCopiedList_cons] at h
    rcases List.mem_append.mp h with h | h
    · exact collectCopied_sound c g h
    · exact collectCopiedList_sound rest g h

end

theorem mem_collectCopiedList {c : Folder} {subs : List Folder} (h : c ∈ subs)
    {g : FileE} (hg : g ∈ collectCopied c) : g ∈ collectCopiedList subs := by
  induction subs with
  | nil => cases h
  | cons d rest ih =>
    rw [collectCopiedList_cons]
    rcases List.mem_cons.mp h with h | h
    · subst h
      exact List.mem_append_left _ hg
    · exact List.mem_append_right _ (ih h)

theorem collectCopied_complete {t : Folder} {p₀ : String} {sub : Folder} {q : String}
    (h : Reaches t p₀ sub q) {g : FileE} (hg : g ∈ sub.files)
    (hc : g.shouldBeCopied = true) : g ∈ collectCopied t := by
  induction h with
  | refl f p =>
    cases f with
    | mk n p' subs files =>
      rw [collectCopied_mk]
      exact List.mem_append_left _ (List.mem_filter.mpr ⟨hg, hc⟩)
  | @step f p c sub' q' hmem hr ih =>
    cases f with
    | mk n p' subs files =>
      rw [collectCopied_mk]
      exact List.mem_append_right _ (mem_collectCopiedList hmem (ih hg))

end TargetSftp

namespace TargetSftp

/-! ## Per-operation state lemmas -/

theorem opStat_eq (p : String) (w : World) :
    ∃ r, opStat p w =
      (r, { w with trace := w.trace ++ [.stat p], oracle := w.oracle.tail }) := by
  unfold opStat emit popOracle
  cases w.oracle with
  | nil =>
    dsimp
    first
    | exact ⟨_, rfl⟩
    | (split_ifs <;> exact ⟨_, rfl⟩)
  | cons b rest =>
    dsimp
    first
    | exact ⟨_, rfl⟩
    | (split_ifs <;> exact ⟨_, rfl⟩)

theorem opListdirAttr_eq (p : String) (w : World) :
    ∃ r, opListdirAttr p w =
      (r, { w with trace := w.trace ++ [.listdirAttr p], oracle := w.oracle.tail }) := by
  unfold opListdirAttr emit popOracle
  cases w.oracle with
  | nil =>
    dsimp
    first
    | exact ⟨_, rfl⟩
    | (split_ifs <;> exact ⟨_, rfl⟩)
  | cons b rest =>
    dsimp
    first
    | exact ⟨_, rfl⟩
    | (split_ifs <;> exact ⟨_, rfl⟩)

theorem opListdir_eq (p : String) (w : World) :
    ∃ r, opListdir p w =
      (r, { w with trace := w.trace ++ [.listdir p], oracle := w.oracle.tail }) := by
  unfold opListdir emit popOracle
  cases w.oracle with
  | nil =>
    dsimp
    first
    | exact ⟨_, rfl⟩
    | (split_ifs <;> exact ⟨_, rfl⟩)
  | cons b rest =>
    dsimp
    first
    | exact ⟨_, rfl⟩
    | (split_ifs <;> exact ⟨_, rfl⟩)

theorem opRename_eq (s d : String) (w : World) :
    ∃ r fs', opRename s d w =
      (r, { w with fs := fs', trace := w.trace ++ [.rename s d], oracle := w.oracle.tail }) := by
  unfold opRename emit popOracle
  cases w.oracle with
  | nil =>
    dsimp
    first
    | exact ⟨_, _, rfl⟩
    | (split_ifs <;> exact ⟨_, _, rfl⟩)
  | cons b rest =>
    dsimp
    first
    | exact ⟨_, _, rfl⟩
    | (split_ifs <;> exact ⟨_, _, rfl⟩)

theorem opRemove_eq (p : String) (w : World) :
    ∃ r fs', opRemove p w =
      (r, { w with fs := fs', trace := w.trace ++ [.remove p], oracle := w.oracle.tail }) := by
  unfold opRemove emit popOracle
  cases w.oracle with
  | nil =>
    dsimp
    first
    | exact ⟨_, _, rfl⟩
    | (split_ifs <;> exact ⟨_, _, rfl⟩)
  | cons b rest =>
    dsimp
    first
    | exact ⟨_, _, rfl⟩
    | (split_ifs <;> exact ⟨_, _, rfl⟩)

theorem opRmdir_eq (p : String) (w : World) :
    ∃ r fs', opRmdir p w =
      (r, { w with fs := fs', trace := w.trace ++ [.rmdir p], oracle := w.oracle.tail }) := by
  unfold opRmdir emit popOracle
  cases w.oracle with
  | nil =>
    dsimp
    first
    | exact ⟨_, _, rfl⟩
    | (split_ifs <;> exact ⟨_, _, rfl⟩)
  | cons b rest =>
    dsimp
    first
    | exact ⟨_, _, rfl⟩
    | (split_ifs <;> exact ⟨_, _, rfl⟩)

theorem opMkdir_eq (p : String) (w : World) :
    ∃ r fs', opMkdir p w =
      (r, { w with fs := fs', trace := w.trace ++ [.mkdir p], oracle := w.oracle.tail }) := by
  unfold opMkdir emit popOracle
  cases w.oracle with
  | nil =>
    dsimp
    first
    | exact ⟨_, _, rfl⟩
    | (split_ifs <;> exact ⟨_, _, rfl⟩)
  | cons b rest =>
    dsimp
    first
    | exact ⟨_, _, rfl⟩
    | (split_ifs <;> exact ⟨_, _, rfl⟩)

theorem opPut_eq (s d : String) (w : World) :
    ∃ r fs', opPut s d w =
      (r, { w with fs := fs', trace := w.trace ++ [.put s d], oracle := w.oracle.tail }) := by
  unfold opPut emit popOracle
  cases w.oracle with
  | nil =>
    dsimp
    first
    | exact ⟨_, _, rfl⟩
    | (split_ifs <;> exact ⟨_, _, rfl⟩)
  | cons b rest =>
    dsimp
    first
    | exact ⟨_, _, rfl⟩
    | (split_ifs <;> exact ⟨_, _, rfl⟩)

theorem opChdir_none_eq (w : World) :
    opChdir none w = (.ok (), { w with cwd := none, trace := w.trace ++ [.chdir none] }) := by
  unfold opChdir emit
  rfl

theorem opChdir_some_eq (q : String) (w : World) :
    ∃ r c', opChdir (some q) w =
      (r, { w with cwd := c', trace := w.trace ++ [.chdir (some q)], oracle := w.oracle.tail }) := by
  unfold opChdir emit popOracle
  cases w.oracle with
  | nil =>
    dsimp
    first
    | exact ⟨_, _, rfl⟩
    | (split_ifs <;> exact ⟨_, _, rfl⟩)
  | cons b rest =>
    dsimp
    first
    | exact ⟨_, _, rfl⟩
    | (split_ifs <;> exact ⟨_, _, rfl⟩)

theorem opChdir_some_ok (q : String) (w : World) (ho : w.oracle = [])
    (hd : isDirFs w.fs q = true) :
    opChdir (some q) w =
      (.ok (), { w with cwd := some q, trace := w.trace ++ [.chdir (some q)] }) := by
  unfold opChdir emit popOracle
  rw [ho]
  dsimp
  rw [hd]
  rfl

end TargetSftp

namespace TargetSftp

/-! ## Trace-emission infrastructure -/

theorem OnlyEmits.rfl (w : World) (P : Event → Bool) : OnlyEmits w w P :=
  ⟨[], by simp, by simp⟩

theorem OnlyEmits.trans {w w₁ w₂ : World} {P : Event → Bool}
    (h₁ : OnlyEmits w w₁ P) (h₂ : OnlyEmits w₁ w₂ P) : OnlyEmits w w₂ P := by
  obtain ⟨t₁, e₁, a₁⟩ := h₁
  obtain ⟨t₂, e₂, a₂⟩ := h₂
  refine ⟨t₁ ++ t₂, ?_, ?_⟩
  · rw [e₂, e₁, List.append_assoc]
  · intro e he
    rcases List.mem_append.mp he with h | h
    · exact a₁ e h
    · exact a₂ e h

theorem OnlyEmits.single {w w' : World} {e : Event} {P : Event → Bool}
    (h : w'.trace = w.trace ++ [e]) (hp : P e = true) : OnlyEmits w w' P := by
  refine ⟨[e], h, ?_⟩
  intro x hx
  rcases List.mem_singleton.mp hx with rfl
  exact hp

theorem no_put_filter {t : List Event} (h : ∀ e ∈ t, Event.isPut e = false) :
    t.filter Event.isPut = [] :=
  List.filter_eq_nil_iff.mpr (by intro e he; simp [h e he])

/-! ## Rollback lemmas -/

theorem rollbackTmps_trace (l : List (String × String × String)) (w : World) :
    (rollbackTmps l w).trace =
      w.trace ++ l.map (fun r => Event.remove (pathJoin r.1 r.2.1)) := by
  induction l generalizing w with
  | nil => simp [rollbackTmps]
  | cons x rest ih =>
    obtain ⟨path, tmpName, finalName⟩ := x
    rw [rollbackTmps]
    obtain ⟨r, fs', hop⟩ := opRemove_eq (pathJoin path tmpName) w
    rw [hop]
    dsimp
    rw [ih]
    simp

theorem rollbackOlds_trace (l : List (String × String)) (w : World) :
    (rollbackOlds l w).trace =
      w.trace ++ l.map (fun r =>
        Event.rename (pathJoin r.1 (r.2 ++ ".target_old")) (pathJoin r.1 r.2)) := by
  induction l generalizing w with
  | nil => simp [rollbackOlds]
  | cons x rest ih =>
    obtain ⟨path, name⟩ := x
    rw [rollbackOlds]
    obtain ⟨r, fs', hop⟩ :=
      opRename_eq (pathJoin path (name ++ ".target_old")) (pathJoin path name) w
    rw [hop]
    dsimp
    rw [ih]
    simp

theorem rollbackDirs_rel (ds : List String) (w : World) :
    RollbackDirsRel ds w (rollbackDirs ds w) := by
  induction ds generalizing w with
  | nil => exact .nil w
  | cons d rest ih =>
    rw [rollbackDirs]
    unfold rollbackDirStep
    split
    · rename_i l w₁ heq
      cases l with
      | nil =>
        simp only [List.isEmpty_nil, if_true]
        exact .removeEmpty heq (ih _)
      | cons a as =>
        simp only [List.isEmpty_cons, Bool.false_eq_true, if_false]
        exact .skipNonempty heq (by simp) (ih w₁)
    · rename_i e w₁ heq
      exact .skipFail heq (ih w₁)

end TargetSftp

namespace TargetSftp

/-! ## Cleaner lemmas -/

theorem restoreOldLoop_trace (l : List (String × String)) (w : World) :
    restoreOldLoop l w =
      (.ok (), (restoreOldLoop l w).2) ∧
    (restoreOldLoop l w).2.trace =
      w.trace ++ (l.filter (fun e => sEndsWith e.2 ".target_old")).map
        (fun e => Event.rename e.1 (strDropRight e.1 11)) := by
  induction l generalizing w with
  | nil => simp [restoreOldLoop]
  | cons x rest ih =>
    obtain ⟨full, name⟩ := x
    rw [restoreOldLoop]
    by_cases hs : sEndsWith name ".target_old" = true
    · simp only [hs, if_true, List.filter_cons, List.map_cons]
      obtain ⟨r, fs', hop⟩ := opRename_eq full (strDropRight full 11) w
      rw [hop]
      dsimp
      obtain ⟨hok, htr⟩ := ih _
      refine ⟨hok, ?_⟩
      rw [htr]
      simp
    · have hs' : sEndsWith name ".target_old" = false := by
        revert hs
        cases sEndsWith name ".target_old" <;> simp
      simp only [hs', List.filter_cons, Bool.false_eq_true, if_false]
      exact ih w

theorem removeTmpLoop_trace (l : List (String × String)) (w : World) :
    removeTmpLoop l w =
      (.ok (), (removeTmpLoop l w).2) ∧
    (removeTmpLoop l w).2.trace =
      w.trace ++ (l.filter (fun e => sEndsWith e.2 ".target_tmp")).map
        (fun e => Event.remove e.1) := by
  induction l generalizing w with
  | nil => simp [removeTmpLoop]
  | cons x rest ih =>
    obtain ⟨full, name⟩ := x
    rw [removeTmpLoop]
    by_cases hs : sEndsWith name ".target_tmp" = true
    · simp only [hs, if_true, List.filter_cons, List.map_cons]
      obtain ⟨r, fs', hop⟩ := opRemove_eq full w
      rw [hop]
      dsimp
      obtain ⟨hok, htr⟩ := ih _
      refine ⟨hok, ?_⟩
      rw [htr]
      simp
    · have hs' : sEndsWith name ".target_tmp" = false := by
        revert hs
        cases sEndsWith name ".target_tmp" <;> simp
      simp only [hs', List.filter_cons, Bool.false_eq_true, if_false]
      exact ih w

theorem opListdir_snd_trace {p : String} {w : World} {r : Except SErr (List String)}
    {w₁ : World} (h : opListdir p w = (r, w₁)) :
    w₁.trace = w.trace ++ [Event.listdir p] := by
  obtain ⟨r', hop⟩ := opListdir_eq p w
  rw [hop] at h
  injection h with h1 h2
  rw [← h2]

theorem removeMarkerDir_shape (path : String) (w : World) :
    ∃ t, (removeMarkerDir path w).2.trace = w.trace ++ t ∧
      (t = [Event.listdir path] ∨ t = [Event.listdir path, Event.rmdir path]) ∧
      (Event.rmdir path ∈ t → ∃ w', opListdir path w = (.ok [], w')) := by
  unfold removeMarkerDir
  split
  · rename_i l w₁ heq
    cases l with
    | nil =>
      simp only [List.isEmpty_nil, if_true]
      obtain ⟨r₂, fs₂, hop₂⟩ := opRmdir_eq path w₁
      rw [hop₂]
      refine ⟨[Event.listdir path, Event.rmdir path], ?_, .inr rfl, fun _ => ⟨w₁, heq⟩⟩
      dsimp
      rw [opListdir_snd_trace heq, List.append_assoc]
      rfl
    | cons a as =>
      simp only [List.isEmpty_cons, Bool.false_eq_true, if_false]
      refine ⟨[Event.listdir path], opListdir_snd_trace heq, .inl rfl, ?_⟩
      intro hm
      simp at hm
  · rename_i e w₁ heq
    refine ⟨[Event.listdir path], opListdir_snd_trace heq, .inl rfl, ?_⟩
    intro hm
    simp at hm

end TargetSftp

namespace TargetSftp

theorem opListdirAttr_snd_trace {p : String} {w : World}
    {r : Except SErr (List (String × Bool))} {w₁ : World}
    (h : opListdirAttr p w = (r, w₁)) :
    w₁.trace = w.trace ++ [Event.listdirAttr p] := by
  obtain ⟨r', hop⟩ := opListdirAttr_eq p w
  rw [hop] at h
  injection h with h1 h2
  rw [← h2]

theorem restoreOldLoop_emits (l : List (String × String)) (w : World) :
    OnlyEmits w (restoreOldLoop l w).2 cleanupEv := by
  obtain ⟨-, htr⟩ := restoreOldLoop_trace l w
  refine ⟨_, htr, ?_⟩
  intro e he
  obtain ⟨x, -, hx⟩ := List.mem_map.mp he
  rw [← hx]
  rfl

theorem removeTmpLoop_emits (l : List (String × String)) (w : World) :
    OnlyEmits w (removeTmpLoop l w).2 cleanupEv := by
  obtain ⟨-, htr⟩ := removeTmpLoop_trace l w
  refine ⟨_, htr, ?_⟩
  intro e he
  obtain ⟨x, -, hx⟩ := List.mem_map.mp he
  rw [← hx]
  rfl

theorem removeMarkerDir_emits (path : String) (w : World) :
    OnlyEmits w (removeMarkerDir path w).2 cleanupEv := by
  obtain ⟨t, htr, hshape, -⟩ := removeMarkerDir_shape path w
  refine ⟨t, htr, ?_⟩
  intro e he
  rcases hshape with rfl | rfl
  · rcases List.mem_singleton.mp he with rfl
    rfl
  · rcases List.mem_cons.mp he with rfl | he
    · rfl
    · rcases List.mem_singleton.mp he with rfl
      rfl

theorem cleanupDirsLoop_emits (go : String → M Unit)
    (hgo : ∀ (p : String) (w : World), OnlyEmits w (go p w).2 cleanupEv) :
    ∀ (l : List (String × String)) (w : World),
      OnlyEmits w (cleanupDirsLoop go l w).2 cleanupEv := by
  intro l
  induction l with
  | nil =>
    intro w
    rw [cleanupDirsLoop]
    exact .rfl _ _
  | cons x rest ih =>
    obtain ⟨full, name⟩ := x
    intro w
    rw [cleanupDirsLoop]
    exact (hgo full w).trans (ih _)

theorem cleanupDirectory_emits :
    ∀ (fuel : Nat) (path : String) (w : World),
      OnlyEmits w (cleanupDirectory fuel path w).2 cleanupEv := by
  intro fuel
  induction fuel with
  | zero =>
    intro path w
    rw [cleanupDirectory]
    exact .rfl _ _
  | succ fuel ih =>
    intro path w
    rw [cleanupDirectory]
    dsimp only
    split
    · rename_i w₁ heq
      exact .single (opListdirAttr_snd_trace heq) rfl
    · rename_i entries w₁ heq
      have h₀ : OnlyEmits w w₁ cleanupEv := .single (opListdirAttr_snd_trace heq) rfl
      split_ifs with hmark
      · exact ((((h₀.trans (restoreOldLoop_emits _ _)).trans
          (removeTmpLoop_emits _ _)).trans (cleanupDirsLoop_emits _ ih _ _)).trans
          (removeMarkerDir_emits _ _))
      · exact (((h₀.trans (restoreOldLoop_emits _ _)).trans
          (removeTmpLoop_emits _ _)).trans (cleanupDirsLoop_emits _ ih _ _))

theorem cleanupDirectory_ok (fuel : Nat) (path : String) (w : World) :
    (cleanupDirectory fuel path w).1 = .ok () := by
  cases fuel with
  | zero =>
    rw [cleanupDirectory]
  | succ fuel =>
    rw [cleanupDirectory]
    dsimp only
    split
    · rfl
    · split_ifs <;> rfl

end TargetSftp

namespace TargetSftp

/-! ## Stage-phase lemmas -/

theorem opStat_snd_trace {p : String} {w : World} {r : Except SErr Unit} {w₁ : World}
    (h : opStat p w = (r, w₁)) : w₁.trace = w.trace ++ [Event.stat p] := by
  obtain ⟨r', hop⟩ := opStat_eq p w
  rw [hop] at h
  injection h with h1 h2
  rw [← h2]

theorem opMkdir_snd_trace {p : String} {w : World} {r : Except SErr Unit} {w₁ : World}
    (h : opMkdir p w = (r, w₁)) : w₁.trace = w.trace ++ [Event.mkdir p] := by
  obtain ⟨r', fs', hop⟩ := opMkdir_eq p w
  rw [hop] at h
  injection h with h1 h2
  rw [← h2]

theorem opPut_snd_trace {s d : String} {w : World} {r : Except SErr Unit} {w₁ : World}
    (h : opPut s d w = (r, w₁)) : w₁.trace = w.trace ++ [Event.put s d] := by
  obtain ⟨r', fs', hop⟩ := opPut_eq s d w
  rw [hop] at h
  injection h with h1 h2
  rw [← h2]

theorem opRename_snd_trace {s d : String} {w : World} {r : Except SErr Unit} {w₁ : World}
    (h : opRename s d w = (r, w₁)) : w₁.trace = w.trace ++ [Event.rename s d] := by
  obtain ⟨r', fs', hop⟩ := opRename_eq s d w
  rw [hop] at h
  injection h with h1 h2
  rw [← h2]

theorem statMkdir_stage {e : Event} (h : statMkdirEv e = true) : stageEv e = true := by
  cases e <;> simp [statMkdirEv, stageEv] at *

theorem statMkdir_no_put {e : Event} (h : statMkdirEv e = true) : Event.isPut e = false := by
  cases e <;> simp [statMkdirEv, Event.isPut] at *

theorem collectDirsToCreate_emits (fuel : Nat) :
    ∀ (cur : String) (acc : List String) (w : World),
      OnlyEmits w (collectDirsToCreate fuel cur acc w).2 statMkdirEv := by
  induction fuel with
  | zero =>
    intro cur acc w
    rw [collectDirsToCreate]
    exact .rfl _ _
  | succ fuel ih =>
    intro cur acc w
    rw [collectDirsToCreate]
    dsimp only
    split_ifs with hcur
    · exact .rfl _ _
    · split
      · rename_i w₁ heq
        exact .single (opStat_snd_trace heq) rfl
      · rename_i w₁ heq
        exact (OnlyEmits.single (opStat_snd_trace heq) rfl).trans (ih _ _ _)
      · rename_i w₁ heq
        exact .single (opStat_snd_trace heq) rfl

theorem mkdirLoop_emits (l : List String) :
    ∀ (dirs : List String) (w : World),
      OnlyEmits w (mkdirLoop l dirs w).2.2 statMkdirEv := by
  induction l with
  | nil =>
    intro dirs w
    exact .rfl _ _
  | cons d rest ih =>
    intro dirs w
    rw [mkdirLoop]
    split
    · rename_i w₁ heq
      exact (OnlyEmits.single (opMkdir_snd_trace heq) rfl).trans (ih _ _)
    · rename_i e w₁ heq
      exact .single (opMkdir_snd_trace heq) rfl

theorem ensureParentDirs_emits (fuel : Nat) (parentDir : String) (dirs : List String)
    (w : World) : OnlyEmits w (ensureParentDirs fuel parentDir dirs w).2.2 statMkdirEv := by
  unfold ensureParentDirs
  split
  · rename_i w₁ heq
    exact .single (opStat_snd_trace heq) rfl
  · rename_i w₁ heq
    split
    · rename_i toCreate w₂ heq₂
      refine ((OnlyEmits.single (opStat_snd_trace heq) rfl).trans ?_).trans
        (mkdirLoop_emits _ _ _)
      have := collectDirsToCreate_emits fuel parentDir [] w₁
      rw [heq₂] at this
      exact this
    · rename_i e w₂ heq₂
      refine (OnlyEmits.single (opStat_snd_trace heq) rfl).trans ?_
      have := collectDirsToCreate_emits fuel parentDir [] w₁
      rw [heq₂] at this
      exact this
  · rename_i w₁ heq
    exact .single (opStat_snd_trace heq) rfl

end TargetSftp

namespace TargetSftp

theorem stageFiles_spec (fuel : Nat) (l : List FileE) :
    ∀ (tmps : List (String × String × String)) (dirs : List String) (w : World),
      ∃ t nts,
        (stageFiles fuel l tmps dirs w).2.2.2.trace = w.trace ++ t ∧
        (∀ e ∈ t, stageEv e = true) ∧
        (stageFiles fuel l tmps dirs w).1 = tmps ++ nts ∧
        (∀ x ∈ nts, recTmpOk x = true) ∧
        ((stageFiles fuel l tmps dirs w).2.2.1 = .ok () →
          t.filter Event.isPut = (l.filter (fun f => f.shouldBeCopied)).map putEv) := by
  induction l with
  | nil =>
    intro tmps dirs w
    refine ⟨[], [], ?_, ?_, ?_, ?_, ?_⟩ <;> simp [stageFiles]
  | cons f rest ih =>
    intro tmps dirs w
    rw [stageFiles]
    by_cases hc : f.shouldBeCopied = true
    · have hcb : (!f.shouldBeCopied) = false := by rw [hc]; rfl
      simp only [hcb, Bool.false_eq_true, if_false]
      split
      · rename_i dirs' u w' heq
        split
        · rename_i u₂ w'' heq₂
          obtain ⟨t₁, ha₁, he₁⟩ := by
            have h := ensureParentDirs_emits fuel (dirname (f.remotePath.getD "")) dirs w
            rw [heq] at h
            exact h
          obtain ⟨t₂, nts₂, htr₂, hall₂, hrec₂, hok₂, hput₂⟩ := ih (tmps ++
            [(dirname (f.remotePath.getD ""),
              basename ((f.remotePath.getD "") ++ ".target_tmp"),
              basename (f.remotePath.getD ""))]) dirs' w''
          refine ⟨t₁ ++ [putEv f] ++ t₂,
            (dirname (f.remotePath.getD ""),
              basename ((f.remotePath.getD "") ++ ".target_tmp"),
              basename (f.remotePath.getD "")) :: nts₂, ?_, ?_, ?_, ?_, ?_⟩
          · rw [htr₂, opPut_snd_trace heq₂, ha₁]
            simp [putEv]
          · intro e he
            rcases List.mem_append.mp he with he | he
            · rcases List.mem_append.mp he with he | he
              · exact statMkdir_stage (he₁ e he)
              · rcases List.mem_singleton.mp he with rfl
                rfl
            · exact hall₂ e he
          · rw [hrec₂]
            simp
          · intro x hx
            rcases List.mem_cons.mp hx with rfl | hx
            · exact recTmpOk_basename _
            · exact hok₂ x hx
          · intro hok
            rw [List.filter_append, List.filter_append]
            rw [no_put_filter (fun e he => statMkdir_no_put (he₁ e he))]
            rw [hput₂ hok]
            simp only [List.filter_cons, hc, if_true, List.map_cons]
            rfl
        · rename_i e₂ w'' heq₂
          obtain ⟨t₁, ha₁, he₁⟩ := by
            have h := ensureParentDirs_emits fuel (dirname (f.remotePath.getD "")) dirs w
            rw [heq] at h
            exact h
          refine ⟨t₁ ++ [putEv f], [], ?_, ?_, by simp, by simp, ?_⟩
          · rw [opPut_snd_trace heq₂, ha₁]
            simp [putEv]
          · intro e' he'
            rcases List.mem_append.mp he' with he' | he'
            · exact statMkdir_stage (he₁ e' he')
            · rcases List.mem_singleton.mp he' with rfl
              rfl
          · intro hok
            simp at hok
      · rename_i dirs' e w' heq
        obtain ⟨t₁, ha₁, he₁⟩ := by
          have h := ensureParentDirs_emits fuel (dirname (f.remotePath.getD "")) dirs w
          rw [heq] at h
          exact h
        refine ⟨t₁, [], ha₁, fun e' he' => statMkdir_stage (he₁ e' he'), by simp, by simp, ?_⟩
        intro hok
        simp at hok
    · have hcb : (!f.shouldBeCopied) = true := by
        revert hc
        cases f.shouldBeCopied <;> simp
      have hcf : f.shouldBeCopied = false := by
        revert hc
        cases f.shouldBeCopied <;> simp
      simp only [hcb, if_true]
      obtain ⟨t, nts, htr, hall, hrec, hok, hput⟩ := ih tmps dirs w
      refine ⟨t, nts, htr, hall, hrec, hok, ?_⟩
      intro hokk
      rw [hput hokk]
      simp [List.filter_cons, hcf]

end TargetSftp

namespace TargetSftp

mutual

theorem stageFolder_spec (fuel : Nat) (f : Folder) :
    ∀ (tmps : List (String × String × String)) (dirs : List String) (w : World),
      ∃ t nts,
        (stageFolder fuel f tmps dirs w).2.2.2.trace = w.trace ++ t ∧
        (∀ e ∈ t, stageEv e = true) ∧
        (stageFolder fuel f tmps dirs w).1 = tmps ++ nts ∧
        (∀ x ∈ nts, recTmpOk x = true) ∧
        ((stageFolder fuel f tmps dirs w).2.2.1 = .ok () →
          t.filter Event.isPut = (collectCopied f).map putEv) := by
  intro tmps dirs w
  cases f with
  | mk n p subs files =>
    rw [stageFolder]
    split
    · rename_i tmps₁ dirs₁ u w₁ heq
      obtain ⟨t₁, nts₁, htr₁, hall₁, hrec₁, hok₁, hput₁⟩ := stageFiles_spec fuel files tmps dirs w
      rw [heq] at htr₁ hrec₁ hput₁
      obtain ⟨t₂, nts₂, htr₂, hall₂, hrec₂, hok₂, hput₂⟩ := stageFolders_spec fuel subs tmps₁ dirs₁ w₁
      refine ⟨t₁ ++ t₂, nts₁ ++ nts₂, ?_, ?_, ?_, ?_, ?_⟩
      · rw [htr₂]
        dsimp at htr₁
        rw [htr₁, List.append_assoc]
      · intro e he
        rcases List.mem_append.mp he with he | he
        · exact hall₁ e he
        · exact hall₂ e he
      · rw [hrec₂]
        dsimp at hrec₁
        rw [hrec₁, List.append_assoc]
      · intro x hx
        rcases List.mem_append.mp hx with hx | hx
        · exact hok₁ x hx
        · exact hok₂ x hx
      · intro hok
        rw [List.filter_append]
        rw [collectCopied_mk, List.map_append]
        rw [hput₁ rfl, hput₂ hok]
    · rename_i res hne
      obtain ⟨t₁, nts₁, htr₁, hall₁, hrec₁, hok₁, hput₁⟩ := stageFiles_spec fuel files tmps dirs w
      refine ⟨t₁, nts₁, htr₁, hall₁, hrec₁, hok₁, ?_⟩
      intro hok
      exfalso
      apply hne (stageFiles fuel files tmps dirs w).1 (stageFiles fuel files tmps dirs w).2.1 ()
        (stageFiles fuel files tmps dirs w).2.2.2
      rw [← hok]

theorem stageFolders_spec (fuel : Nat) (subs : List Folder) :
    ∀ (tmps : List (String × String × String)) (dirs : List String) (w : World),
      ∃ t nts,
        (stageFolders fuel subs tmps dirs w).2.2.2.trace = w.trace ++ t ∧
        (∀ e ∈ t, stageEv e = true) ∧
        (stageFolders fuel subs tmps dirs w).1 = tmps ++ nts ∧
        (∀ x ∈ nts, recTmpOk x = true) ∧
        ((stageFolders fuel subs tmps dirs w).2.2.1 = .ok () →
          t.filter Event.isPut = (collectCopiedList subs).map putEv) := by
  intro tmps dirs w
  cases subs with
  | nil =>
    rw [stageFolders]
    refine ⟨[], [], by simp, by simp, by simp, by simp, ?_⟩
    intro _
    rw [collectCopiedList]
    simp
  | cons c rest =>
    rw [stageFolders]
    split
    · rename_i tmps₁ dirs₁ u w₁ heq
      obtain ⟨t₁, nts₁, htr₁, hall₁, hrec₁, hok₁, hput₁⟩ := stageFolder_spec fuel c tmps dirs w
      rw [heq] at htr₁ hrec₁ hput₁
      obtain ⟨t₂, nts₂, htr₂, hall₂, hrec₂, hok₂, hput₂⟩ := stageFolders_spec fuel rest tmps₁ dirs₁ w₁
      refine ⟨t₁ ++ t₂, nts₁ ++ nts₂, ?_, ?_, ?_, ?_, ?_⟩
      · rw [htr₂]
        dsimp at htr₁
        rw [htr₁, List.append_assoc]
      · intro e he
        rcases List.mem_append.mp he with he | he
        · exact hall₁ e he
        · exact hall₂ e he
      · rw [hrec₂]
        dsimp at hrec₁
        rw [hrec₁, List.append_assoc]
      · intro x hx
        rcases List.mem_append.mp hx with hx | hx
        · exact hok₁ x hx
        · exact hok₂ x hx
      · intro hok
        rw [List.filter_append]
        rw [collectCopiedList_cons, List.map_append]
        rw [hput₁ rfl, hput₂ hok]
    · rename_i res hne
      obtain ⟨t₁, nts₁, htr₁, hall₁, hrec₁, hok₁, hput₁⟩ := stageFolder_spec fuel c tmps dirs w
      refine ⟨t₁, nts₁, htr₁, hall₁, hrec₁, hok₁, ?_⟩
      intro hok
      exfalso
      apply hne (stageFolder fuel c tmps dirs w).1 (stageFolder fuel c tmps dirs w).2.1 ()
        (stageFolder fuel c tmps dirs w).2.2.2
      rw [← hok]

end

end TargetSftp

namespace TargetSftp

/-! ## Displace / publish / finalize lemmas -/

theorem displaceLoop_emits (l : List (String × String × String)) :
    ∀ (olds : List (String × String)) (w : World),
      OnlyEmits w (displaceLoop l olds w).2.2 displaceEv := by
  induction l with
  | nil =>
    intro olds w
    exact .rfl _ _
  | cons x rest ih =>
    obtain ⟨path, tmpName, finalName⟩ := x
    intro olds w
    rw [displaceLoop]
    split
    · rename_i w₁ heq
      split
      · rename_i w₂ heq₂
        refine ((OnlyEmits.single (opStat_snd_trace heq) rfl).trans ?_).trans (ih _ _)
        refine .single (opRename_snd_trace heq₂) ?_
        simp [displaceEv]
      · rename_i w₂ heq₂
        refine ((OnlyEmits.single (opStat_snd_trace heq) rfl).trans ?_).trans (ih _ _)
        refine .single (opRename_snd_trace heq₂) ?_
        simp [displaceEv]
      · rename_i w₂ heq₂
        refine (OnlyEmits.single (opStat_snd_trace heq) rfl).trans ?_
        refine .single (opRename_snd_trace heq₂) ?_
        simp [displaceEv]
    · rename_i w₁ heq
      exact (OnlyEmits.single (opStat_snd_trace heq) rfl).trans (ih _ _)
    · rename_i w₁ heq
      exact .single (opStat_snd_trace heq) rfl

theorem publishLoop_emits (l : List (String × String × String)) :
    ∀ (w : World), (∀ x ∈ l, recTmpOk x = true) →
      OnlyEmits w (publishLoop l w).2 publishEv := by
  induction l with
  | nil =>
    intro w _
    exact .rfl _ _
  | cons x rest ih =>
    obtain ⟨path, tmpName, finalName⟩ := x
    intro w hl
    have htmp : sEndsWith tmpName ".target_tmp" = true := hl _ (List.mem_cons_self _ _)
    rw [publishLoop]
    split
    · rename_i w₁ heq
      refine (OnlyEmits.single (opRename_snd_trace heq) ?_).trans
        (ih _ (fun x hx => hl x (List.mem_cons_of_mem _ hx)))
      simp only [publishEv]
      exact sEndsWith_pathJoin path tmpName ".target_tmp" htmp
    · rename_i e w₁ heq
      refine .single (opRename_snd_trace heq) ?_
      simp only [publishEv]
      exact sEndsWith_pathJoin path tmpName ".target_tmp" htmp

theorem opRemove_snd_trace {p : String} {w : World} {r : Except SErr Unit} {w₁ : World}
    (h : opRemove p w = (r, w₁)) : w₁.trace = w.trace ++ [Event.remove p] := by
  obtain ⟨r', fs', hop⟩ := opRemove_eq p w
  rw [hop] at h
  injection h with h1 h2
  rw [← h2]

theorem finalizeLoop_emits (l : List (String × String)) :
    ∀ (w : World), OnlyEmits w (finalizeLoop l w) Event.isRemove := by
  induction l with
  | nil =>
    intro w
    exact .rfl _ _
  | cons x rest ih =>
    obtain ⟨path, name⟩ := x
    intro w
    rw [finalizeLoop]
    rcases h : opRemove (pathJoin path (name ++ ".target_old")) w with ⟨r, w₁⟩
    exact (OnlyEmits.single (opRemove_snd_trace h) rfl).trans (ih _)

end TargetSftp

namespace TargetSftp

/-- C7: for a file of size `S` split among `N` chunked-transfer workers
(`N ≥ 1`), the `N` contiguous byte ranges are pairwise disjoint (each
range ends no later than any later range starts) and their union exactly
covers `[0, S)`, the last range absorbing any remainder
(`chunkEnd S N (N-1) = S`). -/
theorem C7_chunk_coverage (S N : Nat) (hN : 1 ≤ N) :
    (chunkRanges S N).length = N ∧
    (∀ x : Nat, x < S ↔ ∃ i, i < N ∧ chunkStart S N i ≤ x ∧ x < chunkEnd S N i) ∧
    (∀ i j, i < j → j < N → chunkEnd S N i ≤ chunkStart S N j) ∧
    chunkEnd S N (N - 1) = S := by
  have hq : N * (S / N) ≤ S := by
    rw [Nat.mul_comm]
    exact Nat.div_mul_le_self S N
  refine ⟨by simp [chunkRanges], ?_, ?_, by simp [chunkEnd]⟩
  · intro x
    constructor
    · intro hx
      by_cases hq0 : S / N = 0
      · refine ⟨N - 1, by omega, ?_, ?_⟩
        · unfold chunkStart
          rw [hq0]
          simp
        · unfold chunkEnd
          simp [hx]
      · by_cases hbig : N - 1 ≤ x / (S / N)
        · refine ⟨N - 1, by omega, ?_, ?_⟩
          · unfold chunkStart
            calc (N - 1) * (S / N) ≤ x / (S / N) * (S / N) :=
                  Nat.mul_le_mul_right _ hbig
              _ ≤ x := Nat.div_mul_le_self x (S / N)
          · unfold chunkEnd
            simp [hx]
        · refine ⟨x / (S / N), by omega, ?_, ?_⟩
          · unfold chunkStart
            exact Nat.div_mul_le_self x (S / N)
          · unfold chunkEnd
            have hne : x / (S / N) ≠ N - 1 := by omega
            rw [if_neg hne]
            have hqpos : 0 < S / N := Nat.pos_of_ne_zero hq0
            have hmod : x % (S / N) < S / N := Nat.mod_lt x hqpos
            calc x = S / N * (x / (S / N)) + x % (S / N) := (Nat.div_add_mod x (S / N)).symm
              _ < S / N * (x / (S / N)) + S / N := by omega
              _ = (x / (S / N) + 1) * (S / N) := by ring
    · rintro ⟨i, hi, hs, he⟩
      by_cases hlast : i = N - 1
      · subst hlast
        unfold chunkEnd at he
        simpa using he
      · unfold chunkEnd at he
        rw [if_neg hlast] at he
        have : (i + 1) * (S / N) ≤ N * (S / N) :=
          Nat.mul_le_mul_right _ (by omega)
        omega
  · intro i j hij hjN
    have hine : i ≠ N - 1 := by omega
    unfold chunkEnd chunkStart
    rw [if_neg hine]
    exact Nat.mul_le_mul_right _ (by omega)

/-- Witness for C7 at `S = 10`, `N = 3`. -/
theorem C7_chunk_coverage_witness :
    (chunkRanges 10 3).length = 3 ∧
      (7 < 10 ↔ ∃ i, i < 3 ∧ chunkStart 10 3 i ≤ 7 ∧ 7 < chunkEnd 10 3 i) :=
  ⟨(C7_chunk_coverage 10 3 (by decide)).1, (C7_chunk_coverage 10 3 (by decide)).2.1 7⟩

end TargetSftp

namespace TargetSftp

/-- C10: when the local input path exists but its directory tree holds no
regular files at all, `upload` returns immediately: no connection is made
and the remote world (filesystem, working directory, trace) is returned
unchanged. -/
theorem C10_empty_local_no_remote (fuel : Nat) (inputPath pathPrefix : String)
    (overwrite : Bool) (w : World) (walk : List (String × List String))
    (h : ∀ e ∈ walk, e.2 = []) :
    upload fuel true inputPath walk pathPrefix overwrite w = (.ok (), w) := by
  unfold upload hasMinimumAmountOfFiles
  have hany : walk.any (fun e => e.2.length > 0) = false := by
    rw [List.any_eq_false]
    intro x hx
    simp [h x hx]
  simp [hany]

/-- Witness for C10: a walk that found only empty directories. -/
theorem C10_empty_local_no_remote_witness :
    upload 3 true "/in" [("/in", []), ("/in/sub", [])] "/export" false
        { fs := [("/export", true)], cwd := none, oracle := [], trace := [] } =
      (.ok (), { fs := [("/export", true)], cwd := none, oracle := [], trace := [] }) :=
  C10_empty_local_no_remote 3 "/in" "/export" false _ _ (by
    intro e he
    rcases List.mem_cons.mp he with rfl | he
    · rfl
    · rcases List.mem_singleton.mp he with rfl
      rfl)

/-- C6 counterexample: `build_local_tree` on a nonexistent root does not
fail — `os.walk` of a missing path yields no entries and raises nothing,
so the function returns an ordinary empty tree.  The `PathError` of the
upload flow is raised by `has_minimum_amount_of_files`, not by
`build_local_tree`. -/
theorem C6_buildLocal_no_failure :
    buildLocalTree "/missing" [] = Folder.mk "root" "" [] [] := rfl

/-- C6 (amended): in the upload flow a missing local input root raises
the input-path error before any remote interaction — the returned world
is exactly the input world: no connection, no remote request, no remote
state change.  The check is performed by the pre-flight
`has_minimum_amount_of_files`, not inside `build_local_tree`. -/
theorem C6_input_check_before_remote (fuel : Nat) (inputPath pathPrefix : String)
    (overwrite : Bool) (w : World) (walk : List (String × List String)) :
    upload fuel false inputPath walk pathPrefix overwrite w =
      (.error (.inputMissing inputPath), w) := by
  unfold upload hasMinimumAmountOfFiles
  simp

/-- C8: a `FileEntry`'s `remotePath` is assigned at most once.
`File.localize` raises when the remote path is already set and performs
the single assignment otherwise; the planner's per-file step never
touches a file whose remote path is set, and consequently a file that
already carries a remote path survives planning unchanged (same value,
same entry) anywhere in the tree. -/
theorem C8_remote_path_single_assignment :
    (∀ (f : FileE) (v rp : String) (ow : Bool), f.remotePath = some v →
      FileE.localize f rp ow = .error (.alreadySet f.name v)) ∧
    (∀ (f : FileE) (rp : String) (ow : Bool), f.remotePath = none →
      FileE.localize f rp ow =
        .ok { f with remotePath := some rp,
                     shouldBeCopied := (if ow then false else f.shouldBeCopied) }) ∧
    (∀ (rf : Option Folder) (p : String) (ow : Bool) (f : FileE) (v : String),
      f.remotePath = some v → localizeFile rf p ow f = f) ∧
    (∀ (rt : Folder) (ow : Bool) (lf : Folder) (p₀ : String) (sub : Folder) (p : String)
      (f : FileE) (v : String), Reaches lf p₀ sub p → f ∈ sub.files →
      f.remotePath = some v →
      f ∈ (localizeFiles rt ow sub p).files ∧
      Reaches (localizeFiles rt ow lf p₀) p₀ (localizeFiles rt ow sub p) p) := by
  have h3 : ∀ (rf : Option Folder) (p : String) (ow : Bool) (f : FileE) (v : String),
      f.remotePath = some v → localizeFile rf p ow f = f := by
    intro rf p ow f v hv
    unfold localizeFile
    rw [hv]
  refine ⟨?_, ?_, h3, ?_⟩
  · intro f v rp ow hv
    unfold FileE.localize
    rw [hv]
  · intro f rp ow hv
    unfold FileE.localize
    rw [hv]
  · intro rt ow lf p₀ sub p f v hr hmem hv
    constructor
    · rw [localizeFiles_files]
      exact List.mem_map.mpr ⟨f, hmem, h3 _ _ _ _ _ hv⟩
    · exact mapReaches hr rt ow

/-- Witness for C8 at concrete inputs. -/
theorem C8_remote_path_single_assignment_witness :
    FileE.localize
        { name := "a.txt", localPath := some "/in/a.txt", remotePath := some "/export/a.txt",
          shouldBeCopied := true, status := "pending" } "/other/a.txt" false =
      .error (.alreadySet "a.txt" "/export/a.txt") ∧
    localizeFile none "/export" false
        { name := "a.txt", localPath := some "/in/a.txt", remotePath := some "/export/a.txt",
          shouldBeCopied := true, status := "pending" } =
      { name := "a.txt", localPath := some "/in/a.txt", remotePath := some "/export/a.txt",
        shouldBeCopied := true, status := "pending" } :=
  ⟨C8_remote_path_single_assignment.1 _ "/export/a.txt" "/other/a.txt" false rfl,
   C8_remote_path_single_assignment.2.2.1 none "/export" false _ "/export/a.txt" rfl⟩

end TargetSftp

namespace TargetSftp

/-- C5: per directory, the cleaner (1) renames every listed
`*.target_old` file back (suffix stripped) — all of these renames come
first; (2) then deletes every listed `*.target_tmp` file; (3) then
recurses into subdirectories; (4) finally, only a directory whose own
name carries the `_target_tmp` marker gets the step-4 treatment, and its
`rmdir` is issued only after a listing that showed it empty.  The
cleaner's result is always `ok`: individual failures are logged (the
per-entry events still appear) and processing continues — it never
aborts the run. -/
theorem C5_cleaner_order :
    (∀ (fuel : Nat) (path : String) (w : World),
      (cleanupDirectory fuel path w).1 = .ok ()) ∧
    (∀ (fuel : Nat) (path : String) (w : World) (entries : List (String × Bool)) (w₁ : World),
      opListdirAttr path w = (.ok entries, w₁) →
      ∃ t_rec t_mark,
        (cleanupDirectory (fuel + 1) path w).2.trace =
          w₁.trace
          ++ (((entries.filter (fun e => !e.2)).map (fun e => (pathJoin path e.1, e.1))).filter
                (fun e => sEndsWith e.2 ".target_old")).map
              (fun e => Event.rename e.1 (strDropRight e.1 11))
          ++ (((entries.filter (fun e => !e.2)).map (fun e => (pathJoin path e.1, e.1))).filter
                (fun e => sEndsWith e.2 ".target_tmp")).map
              (fun e => Event.remove e.1)
          ++ t_rec ++ t_mark ∧
        MarkerShape path t_mark) ∧
    (∀ (path : String) (w : World),
      ∃ t, (removeMarkerDir path w).2.trace = w.trace ++ t ∧
        (Event.rmdir path ∈ t → ∃ w', opListdir path w = (.ok [], w'))) := by
  refine ⟨cleanupDirectory_ok, ?_, ?_⟩
  · intro fuel path w entries w₁ h
    rw [cleanupDirectory]
    dsimp only
    rw [h]
    dsimp only
    set files := (entries.filter (fun e => !e.2)).map (fun e => (pathJoin path e.1, e.1)) with hfiles
    set dirs := (entries.filter (fun e => e.2)).map (fun e => (pathJoin path e.1, e.1)) with hdirs
    obtain ⟨-, htr₂⟩ := restoreOldLoop_trace files w₁
    obtain ⟨-, htr₃⟩ := removeTmpLoop_trace files (restoreOldLoop files w₁).2
    obtain ⟨t_rec, htr₄, -⟩ := cleanupDirsLoop_emits _ (cleanupDirectory_emits fuel) dirs (removeTmpLoop files (restoreOldLoop files w₁).2).2
    by_cases hmark : sEndsWith path "_target_tmp" = true
    · rw [if_pos hmark]
      obtain ⟨t_mark, htr₅, hshape, -⟩ :=
        removeMarkerDir_shape path (cleanupDirsLoop (cleanupDirectory fuel) dirs (removeTmpLoop files (restoreOldLoop files w₁).2).2).2
      refine ⟨t_rec, t_mark, ?_, .inr ⟨hmark, hshape⟩⟩
      dsimp only
      rw [htr₅, htr₄, htr₃, htr₂]
    · rw [if_neg hmark]
      refine ⟨t_rec, [], ?_, .inl ⟨by simpa using hmark, rfl⟩⟩
      dsimp only
      rw [htr₄, htr₃, htr₂]
      simp
  · intro path w
    obtain ⟨t, htr, -, hrm⟩ := removeMarkerDir_shape path w
    exact ⟨t, htr, hrm⟩

/-- Witness for C5 at a concrete marker directory. -/
theorem C5_cleaner_order_witness :
    ∃ t, (removeMarkerDir "/d_target_tmp"
        { fs := [("/d_target_tmp", true)], cwd := none, oracle := [], trace := [] }).2.trace =
      ([] : List Event) ++ t ∧
      (Event.rmdir "/d_target_tmp" ∈ t →
        ∃ w', opListdir "/d_target_tmp"
          { fs := [("/d_target_tmp", true)], cwd := none, oracle := [], trace := [] } =
            (.ok [], w')) :=
  C5_cleaner_order.2.2 "/d_target_tmp"
    { fs := [("/d_target_tmp", true)], cwd := none, oracle := [], trace := [] }

end TargetSftp

namespace TargetSftp

theorem opListdirAttr_snd {p : String} {w : World}
    {r : Except SErr (List (String × Bool))} {w₁ : World}
    (h : opListdirAttr p w = (r, w₁)) :
    w₁.fs = w.fs ∧ w₁.cwd = w.cwd ∧ w₁.oracle = w.oracle.tail := by
  obtain ⟨r', hop⟩ := opListdirAttr_eq p w
  rw [hop] at h
  injection h with h1 h2
  rw [← h2]
  exact ⟨rfl, rfl, rfl⟩

theorem scanEntries_preserves (go : String → M (List Folder × List FileE))
    (hgo : ∀ (p : String) (w : World),
      (go p w).2.fs = w.fs ∧ (go p w).2.cwd = w.cwd ∧
      (w.oracle = [] → (go p w).2.oracle = [])) (root cur : String) :
    ∀ (l : List (String × Bool)) (w : World),
      (scanEntries go root cur l w).2.fs = w.fs ∧
      (scanEntries go root cur l w).2.cwd = w.cwd ∧
      (w.oracle = [] → (scanEntries go root cur l w).2.oracle = []) := by
  intro l
  induction l with
  | nil =>
    intro w
    rw [scanEntries]
    exact ⟨rfl, rfl, fun h => h⟩
  | cons x rest ihl =>
    obtain ⟨name, isDir⟩ := x
    intro w
    rw [scanEntries]
    dsimp only
    by_cases hhid : name.data.head? = some '.'
    · rw [if_pos hhid]
      exact ihl w
    · rw [if_neg hhid]
      by_cases hdirn : isDir = true
      · rw [if_pos hdirn]
        split
        · rename_i sub w₁ heq
          split
          · rename_i restRes w₂ heq₂
            have h₁ := hgo (pathJoin cur name) w
            rw [heq] at h₁
            have h₂ := ihl w₁
            rw [heq₂] at h₂
            exact ⟨by rw [h₂.1, h₁.1], by rw [h₂.2.1, h₁.2.1],
              fun ho => h₂.2.2 (h₁.2.2 ho)⟩
          · rename_i e w₂ heq₂
            have h₁ := hgo (pathJoin cur name) w
            rw [heq] at h₁
            have h₂ := ihl w₁
            rw [heq₂] at h₂
            exact ⟨by rw [h₂.1, h₁.1], by rw [h₂.2.1, h₁.2.1],
              fun ho => h₂.2.2 (h₁.2.2 ho)⟩
        · rename_i e w₁ heq
          have h₁ := hgo (pathJoin cur name) w
          rw [heq] at h₁
          exact h₁
      · rw [if_neg hdirn]
        split
        · rename_i restRes w₁ heq
          have h₂ := ihl w
          rw [heq] at h₂
          exact h₂
        · rename_i e w₁ heq
          have h₂ := ihl w
          rw [heq] at h₂
          exact h₂

theorem scanDir_preserves :
    ∀ (fuel : Nat) (root cur : String) (w : World),
      (scanDir fuel root cur w).2.fs = w.fs ∧
      (scanDir fuel root cur w).2.cwd = w.cwd ∧
      (w.oracle = [] → (scanDir fuel root cur w).2.oracle = []) := by
  intro fuel
  induction fuel with
  | zero =>
    intro root cur w
    rw [scanDir]
    exact ⟨rfl, rfl, fun h => h⟩
  | succ fuel ih =>
    intro root cur w
    rw [scanDir]
    dsimp only
    split
    · rename_i entries w₁ heq
      obtain ⟨hfs, hcwd, hor⟩ := opListdirAttr_snd heq
      have h₂ := scanEntries_preserves (scanDir fuel root) (fun p w => ih root p w)
        root cur entries w₁
      refine ⟨by rw [h₂.1, hfs], by rw [h₂.2.1, hcwd], ?_⟩
      intro ho
      refine h₂.2.2 ?_
      rw [hor, ho]
      rfl
    · rename_i e w₁ heq
      obtain ⟨hfs, hcwd, hor⟩ := opListdirAttr_snd heq
      refine ⟨hfs, hcwd, ?_⟩
      intro ho
      rw [hor, ho]
      rfl

end TargetSftp

namespace TargetSftp

theorem opChdir_some_snd {q : String} {w : World} {r : Except SErr Unit} {w₁ : World}
    (h : opChdir (some q) w = (r, w₁)) :
    w₁.fs = w.fs ∧ w₁.oracle = w.oracle.tail := by
  obtain ⟨r', c', hop⟩ := opChdir_some_eq q w
  rw [hop] at h
  injection h with h1 h2
  rw [← h2]
  exact ⟨rfl, rfl⟩

theorem buildRemoteBody_preserves (fuel : Nat) (rootPath : String) (w : World) :
    (buildRemoteBody fuel rootPath w).2.fs = w.fs ∧
      (w.oracle = [] → (buildRemoteBody fuel rootPath w).2.oracle = []) := by
  unfold buildRemoteBody
  by_cases hroot : rootPath ≠ "" ∧ rootPath ≠ "/"
  · rw [if_pos hroot]
    rcases hch : opChdir (some rootPath) w with ⟨rc, wc⟩
    obtain ⟨hcfs, hcor⟩ := opChdir_some_snd hch
    cases rc with
    | ok u =>
      dsimp only
      have hs := scanDir_preserves fuel rootPath (if rootPath = "/" then "." else rootPath) wc
      refine ⟨by rw [hs.1, hcfs], ?_⟩
      intro ho
      refine hs.2.2 ?_
      rw [hcor, ho]
      rfl
    | error e =>
      dsimp only
      refine ⟨hcfs, ?_⟩
      intro ho
      rw [hcor, ho]
      rfl
  · rw [if_neg hroot]
    dsimp only
    have hs := scanDir_preserves fuel rootPath (if rootPath = "/" then "." else rootPath) w
    exact ⟨hs.1, hs.2.2⟩

/-- C9: `build_remote_tree` restores the session's prior working
directory on exit, both when the scan completes and when it raises.  The
hypothesis covers the two session states the flow can be in: a fresh
session (`cwd = none`, as in `upload`, where `getcwd` returns `None` and
the restoring `chdir(None)` never fails), or a working directory that
still names an existing remote directory with no injected transport
fault. -/
theorem C9_cwd_restored (fuel : Nat) (rootPath : String) (w : World)
    (h : w.cwd = none ∨ ∃ p, w.cwd = some p ∧ isDirFs w.fs p = true ∧ w.oracle = []) :
    ((buildRemoteTree fuel rootPath w).2).cwd = w.cwd := by
  unfold buildRemoteTree
  have hpre := buildRemoteBody_preserves fuel rootPath w
  rcases hB : buildRemoteBody fuel rootPath w with ⟨r, w₁⟩
  rw [hB] at hpre
  dsimp only at hpre ⊢
  rcases h with hnone | ⟨p, hp, hdir, horacle⟩
  · rw [hnone, opChdir_none_eq]
    dsimp only
    cases r <;> rfl
  · rw [hp]
    rw [opChdir_some_ok p w₁ (hpre.2 horacle) (by rw [hpre.1]; exact hdir)]
    dsimp only
    cases r <;> rfl

/-- Witness for C9: a listing fault makes the scan raise, yet the
working directory (here: the fresh-session `none`) is restored. -/
theorem C9_cwd_restored_witness :
    ((buildRemoteTree 4 "/export"
        { fs := [("/export", true)], cwd := none, oracle := [true], trace := [] }).2).cwd =
      none :=
  C9_cwd_restored 4 "/export"
    { fs := [("/export", true)], cwd := none, oracle := [true], trace := [] }
    (.inl rfl)

end TargetSftp

namespace TargetSftp

theorem cleanupEv_no_put {e : Event} (h : cleanupEv e = true) : Event.isPut e = false := by
  cases e <;> simp [cleanupEv, Event.isPut] at *

theorem cleanupDirectory_head (fuel : Nat) (path : String) (w : World) (h : 0 < fuel) :
    ∃ t', (cleanupDirectory fuel path w).2.trace =
      w.trace ++ Event.listdirAttr path :: t' := by
  cases fuel with
  | zero => omega
  | succ fuel =>
    rw [cleanupDirectory]
    dsimp only
    split
    · rename_i w₁ heq
      exact ⟨[], by rw [opListdirAttr_snd_trace heq]⟩
    · rename_i entries w₁ heq
      set files := (entries.filter (fun e => !e.2)).map (fun e => (pathJoin path e.1, e.1)) with hfiles
      set dirs := (entries.filter (fun e => e.2)).map (fun e => (pathJoin path e.1, e.1)) with hdirs
      have h₂ := restoreOldLoop_emits files w₁
      have h₃ := removeTmpLoop_emits files (restoreOldLoop files w₁).2
      have h₄ := cleanupDirsLoop_emits _ (cleanupDirectory_emits fuel) dirs (removeTmpLoop files (restoreOldLoop files w₁).2).2
      by_cases hmark : sEndsWith path "_target_tmp" = true
      · rw [if_pos hmark]
        have h₅ := removeMarkerDir_emits path
          (cleanupDirsLoop (cleanupDirectory fuel) dirs (removeTmpLoop files (restoreOldLoop files w₁).2).2).2
        obtain ⟨t'', htr, -⟩ := ((h₂.trans h₃).trans h₄).trans h₅
        refine ⟨t'', ?_⟩
        dsimp only
        rw [htr, opListdirAttr_snd_trace heq]
        simp
      · rw [if_neg hmark]
        obtain ⟨t'', htr, -⟩ := (h₂.trans h₃).trans h₄
        refine ⟨t'', ?_⟩
        dsimp only
        rw [htr, opListdirAttr_snd_trace heq]
        simp

/-- Trace decomposition of `execute_upload`'s `try` body: the cleanup
events come first, then the staging events (stats, mkdirs, puts), then
the displace events (stats and renames-aside to the backup name), then
the publish renames (from `.target_tmp` sources), then the finalize
removals; on success the staging puts are exactly one put per planned
file, in engine order. -/
theorem executeUploadBody_trace (fuel : Nat) (tree : Folder) (ow : Bool) (w : World) :
    ∃ t_cl t_st t_di t_pu t_fi,
      (executeUploadBody fuel tree ow w).2.2.trace =
        w.trace ++ t_cl ++ t_st ++ t_di ++ t_pu ++ t_fi ∧
      (∀ e ∈ t_cl, cleanupEv e = true) ∧
      (0 < fuel → t_cl.head? = some (Event.listdirAttr (cleanupRootOf tree))) ∧
      (∀ e ∈ t_st, stageEv e = true) ∧
      (∀ e ∈ t_di, displaceEv e = true) ∧
      (∀ e ∈ t_pu, publishEv e = true) ∧
      (∀ e ∈ t_fi, Event.isRemove e = true) ∧
      ((executeUploadBody fuel tree ow w).2.1 = .ok () →
        t_st.filter Event.isPut = (collectCopied tree).map putEv) := by
  unfold executeUploadBody
  split
  · rename_i e w₁ heq
    obtain ⟨t_cl, htr, hall⟩ := by
      have h := cleanupDirectory_emits fuel (cleanupRootOf tree) w
      rw [heq] at h
      exact h
    have hhead : 0 < fuel → t_cl.head? = some (Event.listdirAttr (cleanupRootOf tree)) := by
      intro hf
      obtain ⟨t', htr'⟩ := by
        have h := cleanupDirectory_head fuel (cleanupRootOf tree) w hf
        rw [heq] at h
        exact h
      dsimp at htr'
      rw [htr'] at htr
      have := List.append_cancel_left htr
      rw [← this]
      rfl
    refine ⟨t_cl, [], [], [], [], ?_, hall, hhead, by simp, by simp, by simp, by simp, ?_⟩
    · dsimp
      rw [htr]
      simp
    · intro hok
      simp at hok
  · rename_i u w₁ heq
    obtain ⟨t_cl, htr₁, hall₁⟩ := by
      have h := cleanupDirectory_emits fuel (cleanupRootOf tree) w
      rw [heq] at h
      exact h
    have hhead : 0 < fuel → t_cl.head? = some (Event.listdirAttr (cleanupRootOf tree)) := by
      intro hf
      obtain ⟨t', htr'⟩ := by
        have h := cleanupDirectory_head fuel (cleanupRootOf tree) w hf
        rw [heq] at h
        exact h
      dsimp at htr'
      rw [htr'] at htr₁
      have := List.append_cancel_left htr₁
      rw [← this]
      rfl
    split
    · rename_i tmps dirs e w₂ heq₂
      obtain ⟨t_st, nts, htr₂, hall₂, -, -, -⟩ := by
        have h := stageFolder_spec fuel tree [] [] w₁
        rw [heq₂] at h
        exact h
      refine ⟨t_cl, t_st, [], [], [], ?_, hall₁, hhead, hall₂, by simp, by simp, by simp, ?_⟩
      · dsimp
        rw [htr₂, htr₁]
        simp
      · intro hok
        simp at hok
    · rename_i tmps dirs u₂ w₂ heq₂
      obtain ⟨t_st, nts, htr₂, hall₂, hnts, hntsOk, hput₂⟩ := by
        have h := stageFolder_spec fuel tree [] [] w₁
        rw [heq₂] at h
        exact h
      dsimp at htr₂ hnts hput₂
      have htmpsOk : ∀ x ∈ tmps, recTmpOk x = true := by
        intro x hx
        apply hntsOk
        have : tmps = nts := by simpa using hnts
        rw [← this]
        exact hx
      split
      · rename_i olds e w₃ heq₃
        have hdi : OnlyEmits w₂ w₃ displaceEv := by
          by_cases how : ow = true
          · rw [if_pos how] at heq₃
            have h := displaceLoop_emits tmps [] w₂
            rw [heq₃] at h
            exact h
          · rw [if_neg how] at heq₃
            injection heq₃ with ha hb
            injection hb with hb hc
            rw [← hc]
            exact .rfl _ _
        obtain ⟨t_di, htr₃, hall₃⟩ := hdi
        refine ⟨t_cl, t_st, t_di, [], [], ?_, hall₁, hhead, hall₂, hall₃, by simp, by simp, ?_⟩
        · dsimp
          rw [htr₃, htr₂, htr₁]
          simp
        · intro hok
          simp at hok
      · rename_i olds u₃ w₃ heq₃
        have hdi : OnlyEmits w₂ w₃ displaceEv := by
          by_cases how : ow = true
          · rw [if_pos how] at heq₃
            have h := displaceLoop_emits tmps [] w₂
            rw [heq₃] at h
            exact h
          · rw [if_neg how] at heq₃
            injection heq₃ with ha hb
            injection hb with hb hc
            rw [← hc]
            exact .rfl _ _
        obtain ⟨t_di, htr₃, hall₃⟩ := hdi
        split
        · rename_i e w₄ heq₄
          obtain ⟨t_pu, htr₄, hall₄⟩ := by
            have h := publishLoop_emits tmps w₃ htmpsOk
            rw [heq₄] at h
            exact h
          refine ⟨t_cl, t_st, t_di, t_pu, [], ?_, hall₁, hhead, hall₂, hall₃, hall₄, by simp, ?_⟩
          · dsimp
            rw [htr₄, htr₃, htr₂, htr₁]
            simp
          · intro hok
            simp at hok
        · rename_i u₄ w₄ heq₄
          obtain ⟨t_pu, htr₄, hall₄⟩ := by
            have h := publishLoop_emits tmps w₃ htmpsOk
            rw [heq₄] at h
            exact h
          obtain ⟨t_fi, htr₅, hall₅⟩ := finalizeLoop_emits olds w₄
          refine ⟨t_cl, t_st, t_di, t_pu, t_fi, ?_, hall₁, hhead, hall₂, hall₃, hall₄, hall₅, ?_⟩
          · dsimp
            rw [htr₅, htr₄, htr₃, htr₂, htr₁]
          · intro hok
            exact hput₂ rfl

end TargetSftp

namespace TargetSftp

/-- C3: within one engine invocation the phases are strictly sequential:
the body's trace decomposes as cleanup events, then staging events
(stats, mkdirs and the puts to `.target_tmp` names), then displace
events (stats and renames-aside to `.target_old`), then publish renames
(each from a `.target_tmp` source), then finalize removals.  Hence every
staged upload precedes every displacement, and every displacement
precedes every publish rename — no file is renamed to its final name
until staging has finished for every planned file: on a successful run
the staging segment contains exactly one put per file with a transfer
decision, in engine order. -/
theorem C3_phases_sequential (fuel : Nat) (tree : Folder) (ow : Bool) (w : World) :
    ∃ t_cl t_st t_di t_pu t_fi,
      (executeUploadBody fuel tree ow w).2.2.trace =
        w.trace ++ t_cl ++ t_st ++ t_di ++ t_pu ++ t_fi ∧
      (∀ e ∈ t_cl, cleanupEv e = true) ∧
      (∀ e ∈ t_st, stageEv e = true) ∧
      (∀ e ∈ t_di, displaceEv e = true) ∧
      (∀ e ∈ t_pu, publishEv e = true) ∧
      (∀ e ∈ t_fi, Event.isRemove e = true) ∧
      (∀ e ∈ t_cl, Event.isPut e = false) ∧
      ((executeUploadBody fuel tree ow w).2.1 = .ok () →
        t_st.filter Event.isPut = (collectCopied tree).map putEv) := by
  obtain ⟨t_cl, t_st, t_di, t_pu, t_fi, htr, hcl, -, hst, hdi, hpu, hfi, hput⟩ :=
    executeUploadBody_trace fuel tree ow w
  exact ⟨t_cl, t_st, t_di, t_pu, t_fi, htr, hcl, hst, hdi, hpu, hfi,
    fun e he => cleanupEv_no_put (hcl e he), hput⟩

/-- C4 counterexample: the cleaner is not always rooted at the remote
transfer prefix.  Plan the local tree `{sub/b.txt}` (whose root folder
holds no files) against an empty remote with prefix `/export`: the root
passed to the cleaner is `dirname(files[0])` only when the plan's root
folder has files, and `"/"` otherwise — here it is `"/"`, not
`"/export"`. -/
theorem C4_cleaner_root_counterexample :
    cleanupRootOf
        (prepareUploadTree (buildLocalTree "/in" [("/in", []), ("/in/sub", ["b.txt"])])
          (Folder.mk "root" "" [] []) "/export" false) = "/" ∧
    ("/" : String) ≠ "/export" := by
  have hfiles : (prepareUploadTree (buildLocalTree "/in" [("/in", []), ("/in/sub", ["b.txt"])])
      (Folder.mk "root" "" [] []) "/export" false).files = [] := by
    unfold prepareUploadTree
    rw [localizeFiles_files]
    have hb : (buildLocalTree "/in" [("/in", []), ("/in/sub", ["b.txt"])]).files = [] := rfl
    rw [hb]
    rfl
  constructor
  · unfold cleanupRootOf
    rw [hfiles]
  · decide

/-- C4 (amended): the artifact cleaner runs first — before every
transfer: its events open the body's trace (the first remote request is
the listing of the cleanup root) and no put event occurs among them.
It is rooted at the directory of the plan's first root-level file, which
equals the remote transfer prefix whenever such a file exists (its
remote path being the prefix joined with a walk filename and the prefix
carrying no trailing slash); when the plan has no root-level files the
cleaner is instead rooted at the filesystem root `"/"`. -/
theorem C4_cleaner_first_rooted (fuel : Nat) (tree : Folder) (ow : Bool) (w : World) :
    (∃ t_cl t_rest,
      (executeUploadBody fuel tree ow w).2.2.trace = w.trace ++ t_cl ++ t_rest ∧
      (∀ e ∈ t_cl, cleanupEv e = true) ∧
      (∀ e ∈ t_cl, Event.isPut e = false) ∧
      (0 < fuel → t_cl.head? = some (Event.listdirAttr (cleanupRootOf tree)))) ∧
    (∀ (g : FileE) (gs : List FileE) (rp : String), tree.files = g :: gs →
      g.remotePath = some rp → cleanupRootOf tree = dirname rp) ∧
    (tree.files = [] → cleanupRootOf tree = "/") ∧
    (∀ (pre n : String), goodName n → (pre = "/" ∨ pre.data.getLast? ≠ some '/') →
      dirname (pathJoin pre n) = pre) := by
  refine ⟨?_, ?_, ?_, ?_⟩
  · obtain ⟨t_cl, t_st, t_di, t_pu, t_fi, htr, hcl, hhead, -, -, -, -, -⟩ :=
      executeUploadBody_trace fuel tree ow w
    refine ⟨t_cl, t_st ++ t_di ++ t_pu ++ t_fi, ?_, hcl,
      fun e he => cleanupEv_no_put (hcl e he), hhead⟩
    rw [htr]
    simp
  · intro g gs rp hfiles hrp
    unfold cleanupRootOf
    rw [hfiles]
    dsimp
    rw [hrp]
    rfl
  · intro hfiles
    unfold cleanupRootOf
    rw [hfiles]
  · intro pre n hn hpre
    exact dirname_pathJoin pre n hn hpre

end TargetSftp

namespace TargetSftp

/-- C2: whenever the `try` body of `execute_upload` raises, the engine
performs the best-effort rollback and re-raises the original failure
wrapped as "rolled back": every recorded temp file gets a remove request
(in record order), then every recorded backup gets a rename back to its
original name, then the created directories are processed in reverse
creation order, `rmdir` being issued only after a listing showed the
directory empty.  The returned error is `.rolledBack e` for the body's
own error `e`, for every failure-injection oracle — an error during
rollback is swallowed and never replaces the original failure. -/
theorem C2_rollback_wraps_original (fuel : Nat) (tree : Folder) (ow : Bool) (w : World)
    (recs : Recs) (e : UErr) (w₁ : World)
    (h : executeUploadBody fuel tree ow w = (recs, .error e, w₁)) :
    ∃ wF,
      executeUpload fuel tree ow w = (.error (.rolledBack e), wF) ∧
      (rollbackTmps recs.tmps w₁).trace =
        w₁.trace ++ recs.tmps.map (fun r => Event.remove (pathJoin r.1 r.2.1)) ∧
      (rollbackOlds recs.olds (rollbackTmps recs.tmps w₁)).trace =
        (rollbackTmps recs.tmps w₁).trace ++
          recs.olds.map (fun r =>
            Event.rename (pathJoin r.1 (r.2 ++ ".target_old")) (pathJoin r.1 r.2)) ∧
      RollbackDirsRel recs.dirs.reverse (rollbackOlds recs.olds (rollbackTmps recs.tmps w₁)) wF := by
  refine ⟨_, ?_, rollbackTmps_trace _ _, rollbackOlds_trace _ _, rollbackDirs_rel _ _⟩
  unfold executeUpload
  rw [h]

/-- Witness for C2: the put of the only planned file fails (injected on
the third remote request); the engine reports the wrapped error. -/
theorem C2_rollback_wraps_original_witness :
    (executeUpload 3
        (prepareUploadTree (buildLocalTree "/in" [("/in", ["a.txt"])])
          (Folder.mk "root" "" [] []) "/export" false) false
        { fs := [("/export", true)], cwd := none, oracle := [false, false, true],
          trace := [] }).1 =
      .error (.rolledBack (.io .ioError)) := by
  obtain ⟨wF, h1, -, -, -⟩ := C2_rollback_wraps_original 3
    (prepareUploadTree (buildLocalTree "/in" [("/in", ["a.txt"])])
      (Folder.mk "root" "" [] []) "/export" false) false
    { fs := [("/export", true)], cwd := none, oracle := [false, false, true], trace := [] }
    ⟨[], [], []⟩ (.io .ioError)
    { fs := [("/export", true)], cwd := none, oracle := [],
      trace := [Event.listdirAttr "/export", Event.stat "/export",
        Event.put "/in/a.txt" "/export/a.txt.target_tmp"] }
    (by rfl)
  rw [h1]

end TargetSftp

namespace TargetSftp

/-- C1: for every file the planner plans (an un-planned file reached by
the planner's recursion, with the tree invariant of `build_local_tree`),
its remote path is set to the remote root prefix joined with its
folder's relative path and its name; if a remote counterpart exists in
the corresponding remote folder and overwrite is off the decision is
Skip (`should_be_copied = false`) and the file is not among the files
the engine transfers; with overwrite on the decision is Overwrite and
the file is transferred; with no remote counterpart the decision is
Upload and the file is transferred. -/
theorem C1_planner_decisions (remote : Folder) (ow : Bool) (lf : Folder) (p₀ : String)
    (sub : Folder) (p : String) (f : FileE)
    (hr : Reaches lf p₀ sub p)
    (hwf : wfFolder lf) (hroot : lf.path = "")
    (hmem : f ∈ sub.files) (hnone : f.remotePath = none) (hcopy : f.shouldBeCopied = true)
    (hname : goodName f.name) (f' : FileE) (rfold : Option Folder)
    (hrf : rfold = findRemoteFolder remote (relSegs sub.path))
    (hf' : f' = localizeFile rfold p ow f) :
    f' ∈ (localizeFiles remote ow sub p).files ∧
    f'.remotePath = some (pathJoin (pathJoin p₀ sub.path) f.name) ∧
    ((rfold.bind (fun g => g.getFile f.name)).isSome → ow = false →
      f'.shouldBeCopied = false ∧ f' ∉ collectCopied (localizeFiles remote ow lf p₀)) ∧
    ((rfold.bind (fun g => g.getFile f.name)).isSome → ow = true →
      f'.shouldBeCopied = true ∧ f' ∈ collectCopied (localizeFiles remote ow lf p₀)) ∧
    ((rfold.bind (fun g => g.getFile f.name)) = none →
      f'.shouldBeCopied = true ∧ f' ∈ collectCopied (localizeFiles remote ow lf p₀)) := by
  have hpath : pathJoin p f.name = pathJoin (pathJoin p₀ sub.path) f.name := by
    refine (reaches_inv p₀ hr hwf ?_ ?_).2 f.name hname
    · rw [hroot]
      exact .inl rfl
    · intro m hm
      rw [hroot]
      exact (pathJoin_empty_collapse p₀ m (goodName_head hm)).symm
  have hmem' : f' ∈ (localizeFiles remote ow sub p).files := by
    rw [localizeFiles_files, ← hrf]
    exact List.mem_map.mpr ⟨f, hmem, hf'.symm⟩
  have hreach' := mapReaches hr remote ow
  refine ⟨hmem', ?_, ?_, ?_, ?_⟩
  · rw [hf']
    unfold localizeFile
    rw [hnone]
    dsimp only
    cases hex : rfold.bind (fun g => g.getFile f.name) with
    | some g =>
      cases ow <;> simp [hex, hpath]
    | none =>
      simp [hex, hpath]
  · intro hsome how
    obtain ⟨g, hg⟩ := Option.isSome_iff_exists.mp hsome
    have hbc : f'.shouldBeCopied = false := by
      rw [hf']
      unfold localizeFile
      rw [hnone]
      dsimp only
      rw [hg, how]
      rfl
    refine ⟨hbc, ?_⟩
    intro hin
    have := collectCopied_sound _ _ hin
    rw [hbc] at this
    cases this
  · intro hsome how
    obtain ⟨g, hg⟩ := Option.isSome_iff_exists.mp hsome
    have hbc : f'.shouldBeCopied = true := by
      rw [hf']
      unfold localizeFile
      rw [hnone]
      dsimp only
      rw [hg, how]
      exact hcopy
    exact ⟨hbc, collectCopied_complete hreach' hmem' hbc⟩
  · intro hno
    have hbc : f'.shouldBeCopied = true := by
      rw [hf']
      unfold localizeFile
      rw [hnone]
      dsimp only
      rw [hno]
      exact hcopy
    exact ⟨hbc, collectCopied_complete hreach' hmem' hbc⟩

end TargetSftp

namespace TargetSftp

/-- Witness for C1: one local file `a.txt` planned against a remote tree
that already holds `a.txt`, with overwrite off: the remote path is the
prefix joined with the name, the decision is Skip, and the file is not
among the files the engine transfers. -/
theorem C1_planner_decisions_witness :
    (localizeFile
        (some (Folder.mk "root" "" []
          [{ name := "a.txt", localPath := none, remotePath := some "/export/a.txt",
             shouldBeCopied := false, status := "pending" }])) "/export" false
        { name := "a.txt", localPath := some "/in/a.txt", remotePath := none,
          shouldBeCopied := true, status := "pending" }).remotePath = some "/export/a.txt" ∧
    (localizeFile
        (some (Folder.mk "root" "" []
          [{ name := "a.txt", localPath := none, remotePath := some "/export/a.txt",
             shouldBeCopied := false, status := "pending" }])) "/export" false
        { name := "a.txt", localPath := some "/in/a.txt", remotePath := none,
          shouldBeCopied := true, status := "pending" }).shouldBeCopied = false := by
  obtain ⟨h₁, h₂, h₃, h₄, h₅⟩ := C1_planner_decisions
    (Folder.mk "root" "" []
      [{ name := "a.txt", localPath := none, remotePath := some "/export/a.txt",
         shouldBeCopied := false, status := "pending" }]) false
    (Folder.mk "root" "" []
      [{ name := "a.txt", localPath := some "/in/a.txt", remotePath := none,
         shouldBeCopied := true, status := "pending" }]) "/export"
    (Folder.mk "root" "" []
      [{ name := "a.txt", localPath := some "/in/a.txt", remotePath := none,
         shouldBeCopied := true, status := "pending" }]) "/export"
    { name := "a.txt", localPath := some "/in/a.txt", remotePath := none,
      shouldBeCopied := true, status := "pending" }
    (.refl _ _)
    (by rw [wfFolder, wfChildren]; trivial) rfl
    (List.mem_cons_self _ _) rfl rfl
    ⟨by decide, by decide⟩ _ _ rfl rfl
  refine ⟨h₂.trans (by rfl), (h₃ (by rfl) rfl).1⟩

end TargetSftp
